import Mathlib

/-!
# Lottery game (MSP430): shallow embedding of `projekat_MRS/main.c`

The program is three interrupt handlers over a handful of globals:

* `display`     : double-dabble binary to BCD conversion into `digits[2]`;
* `A0CCR0ISR`   : multiplexes the two 7-segment positions;
* `TBCCR0ISR`   : runs when the debounce timer fires and dispatches on the buttons;
* `A1CCR0ISR`   : advances a 16-bit LFSR until its low five bits are an unvisited number.

Machine integers are `Nat`/`Int` with explicit reduction to the width of the C type.
C arrays are total maps from the index to the stored byte; the cells of `digits` are the
indices `0, 1` and the cells of `indicators` are the indices `0 .. 31`.
-/

namespace Lottery

/-! ## Constants of `msp430.h` used by the handlers -/

/-- Bit masks `BITn` of `msp430.h`. -/
def BIT0 : Nat := 0x01
/-- Bit mask of bit 1. -/
def BIT1 : Nat := 0x02
/-- Bit mask of bit 4. -/
def BIT4 : Nat := 0x10
/-- Bit mask of bit 5. -/
def BIT5 : Nat := 0x20
/-- Bit mask of bit 7. -/
def BIT7 : Nat := 0x80

/-! ## The globals -/

/-- Write `v` to cell `i` of an array. -/
def arrSet (a : Nat → Nat) (i v : Nat) : Nat → Nat :=
  fun j => if j = i then v else a j

/-- A hardware timer as the handlers use it: `running` is the up-mode bit `MC__UP` of its
control register (`TA1CTL`, `TBCTL`), the only mode bit `main.c` ever sets or clears; `count`
is its counter register, which a store of the clear bit (`TACLR`, `TBCLR`) zeroes. So
`CTL &= ~MC__UP` is `running := false`, `CTL |= MC__UP` is `running := true` and
`CTL |= TACLR` is `count := 0`. -/
structure Timer where
  /-- The timer counts (and raises its interrupt) while this is set. -/
  running : Bool
  /-- The counter register of the timer. -/
  count : Nat
deriving DecidableEq, Repr

/-- The globals and function-local statics of `main.c`, the peripheral registers the handlers
touch, and the two output streams (bytes stored to `UCA1TXBUF`, arguments of `WriteLed`). -/
structure State where
  /-- The array `static volatile uint8_t digits[2]`. -/
  digits : Nat → Nat
  /-- The array `static volatile uint8_t indicators[32]`. -/
  indicators : Nat → Nat
  /-- The global `static volatile uint16_t LSFR_5b`. -/
  LSFR_5b : Nat
  /-- The global `static volatile int8_t cnt`. -/
  cnt : Int
  /-- The local `static uint16_t LSFR` of `A1CCR0ISR`. -/
  LSFR : Nat
  /-- The local `static uint8_t current_digit` of `A0CCR0ISR`. -/
  current_digit : Nat
  /-- Timer A1, whose interrupt runs the generator `A1CCR0ISR`. -/
  TA1 : Timer
  /-- Timer B0, the debounce timer, whose interrupt runs `TBCCR0ISR`. -/
  TB : Timer
  /-- Output register of port 6 (`BIT4` is SEL2, active low). -/
  P6OUT : Nat
  /-- Output register of port 7 (`BIT0` is SEL1, active low). -/
  P7OUT : Nat
  /-- Bytes stored to `UCA1TXBUF`, oldest first. -/
  tx : List Nat
  /-- Arguments of the calls of `WriteLed`, oldest first. -/
  led : List Nat

/-! ## `display`: double dabble -/

/-- One pass of the inner `for (tmp ...)` body of `display` on one nibble: returns the stored
nibble `data[tmp]` and the carry `next` handed to the following nibble. -/
def nibbleStep (nibble next : Nat) : Nat × Nat :=
  let nibble := (nibble + (if nibble ≥ 5 then 3 else 0)) % 256
  let nibble := (nibble <<< 1) % 256
  let nibble := nibble ||| next
  let next := if nibble &&& BIT4 ≠ 0 then 1 else 0
  (nibble &&& 0xf, next)

/-- The inner loop `for (tmp = 0; tmp < 2; tmp++)` of `display`: `k` iterations left, at
index `tmp`, with the carry `next`. -/
def displayInner : Nat → Nat → (Nat → Nat) → Nat → (Nat → Nat)
  | 0, _, data, _ => data
  | k + 1, tmp, data, next =>
    let r := nibbleStep (data tmp) next
    displayInner k (tmp + 1) (arrSet data tmp r.1) r.2

/-- The outer loop `for (count = 7; count >= 0; count--)` of `display`; the first argument is
the number of iterations left. -/
def displayOuter : Nat → Nat → (Nat → Nat) → (Nat → Nat)
  | 0, _, data => data
  | k + 1, nr, data =>
    let next := if nr &&& BIT7 ≠ 0 then 1 else 0
    let nr := (nr <<< 1) % 65536
    displayOuter k nr (displayInner 2 0 data next)

/-- The local array `data` of `display` when the outer loop has finished. -/
def displayData (number : Nat) : Nat → Nat :=
  displayOuter 8 number (fun _ => 0)

/-- The copy loop `for (tmp = 0; tmp < 2; tmp++) digits[tmp] = data[tmp]`. -/
def displayCopy (data : Nat → Nat) : Nat → Nat → (Nat → Nat) → (Nat → Nat)
  | 0, _, digits => digits
  | k + 1, tmp, digits => displayCopy data k (tmp + 1) (arrSet digits tmp (data tmp))

/-- The function `void display(const uint16_t number)`. -/
def display (number : Nat) (s : State) : State :=
  { s with digits := displayCopy (displayData number) 2 0 s.digits }

/-! ## `A0CCR0ISR`: the display multiplexer -/

/-- Modelled from the spec: `WriteLed` (declared in `function.h`, not part of the sources at
hand) is the segment-drive collaborator; it accepts one digit value and produces the segment
pattern. The model records the value it is called with. -/
def WriteLed (d : Nat) (s : State) : State :=
  { s with led := s.led ++ [d] }

/-- The handler `A0CCR0ISR` of timer A0. -/
def A0CCR0ISR (s : State) : State :=
  let s :=
    if s.current_digit = 1 then
      let s := { s with P6OUT := s.P6OUT ||| BIT4 }
      let s := WriteLed (s.digits s.current_digit) s
      { s with P7OUT := s.P7OUT &&& (0xFF ^^^ BIT0) }
    else if s.current_digit = 0 then
      let s := { s with P7OUT := s.P7OUT ||| BIT0 }
      let s := WriteLed (s.digits s.current_digit) s
      { s with P6OUT := s.P6OUT &&& (0xFF ^^^ BIT4) }
    else s
  { s with current_digit := ((s.current_digit + 1) &&& 0x01) % 256 }

/-- Select line SEL1 (`P7.0`, active low) is driven active: it lights the position that shows
`digits[1]`. -/
def sel1Active (s : State) : Bool := s.P7OUT &&& BIT0 == 0

/-- Select line SEL2 (`P6.4`, active low) is driven active: it lights the position that shows
`digits[0]`. -/
def sel2Active (s : State) : Bool := s.P6OUT &&& BIT4 == 0

/-! ## `TBCCR0ISR`: command dispatch -/

/-- Conversion of an `int` value to `int8_t` (reduction modulo 256 into `-128 .. 127`, as the
MSP430 compilers do). -/
def toInt8 (x : Int) : Int := (x + 128) % 256 - 128

/-- The loop `for (i = 31; i >= 0; i--) indicators[i] = 0;`, with `k = i + 1` iterations
left. -/
def clearLoop : Nat → (Nat → Nat) → (Nat → Nat)
  | 0, ind => ind
  | i + 1, ind => clearLoop i (arrSet ind i 0)

/-- Body of the branch `(P1IN & BIT5) == 0` of `TBCCR0ISR` (button S2, "confirm"). -/
def confirmAction (s : State) : State :=
  let s := { s with TB := { s.TB with running := false } }
  let s := { s with TB := { s.TB with count := 0 } }
  let s := { s with TA1 := { s.TA1 with running := false } }
  let s := { s with TA1 := { s.TA1 with count := 0 } }
  let s := { s with cnt := toInt8 (s.cnt + 1) }
  if s.cnt < 8 then
    let s := { s with indicators := arrSet s.indicators s.LSFR_5b 1 }
    { s with tx := s.tx ++ [s.LSFR_5b % 256] }
  else s

/-- Body of the branch `(P1IN & BIT4) == 0` of `TBCCR0ISR` (button S1, "finalize"). -/
def finalizeAction (s : State) : State :=
  let s := { s with TB := { s.TB with running := false } }
  let s := { s with TB := { s.TB with count := 0 } }
  if s.cnt ≥ 7 then
    let s := { s with digits := arrSet s.digits 1 10 }
    let s := { s with digits := arrSet s.digits 0 11 }
    { s with tx := s.tx ++ [10] }
  else
    { s with TA1 := { s.TA1 with running := true } }

/-- Body of the branch `(P1IN & BIT1) == 0` of `TBCCR0ISR` (button S3, "reset"). -/
def resetAction (s : State) : State :=
  let s := { s with TB := { s.TB with running := false } }
  let s := { s with TB := { s.TB with count := 0 } }
  let s := { s with TA1 := { s.TA1 with count := 0 } }
  let s := { s with TA1 := { s.TA1 with running := true } }
  let s := { s with indicators := clearLoop 32 s.indicators }
  let s := { s with cnt := 0 }
  { s with tx := s.tx ++ [10] }

/-- The handler `TBCCR0ISR` of timer B0; `P1IN` is the value read from the input port. -/
def TBCCR0ISR (P1IN : Nat) (s : State) : State :=
  if P1IN &&& BIT5 = 0 then confirmAction s
  else if P1IN &&& BIT4 = 0 then finalizeAction s
  else if P1IN &&& BIT1 = 0 then resetAction s
  else s

/-! ## `A1CCR0ISR`: the generator -/

/-- The LFSR update `(LSFR >> 1) ^ ((LSFR ^ (LSFR >> 2) ^ (LSFR >> 3) ^ (LSFR >> 5)) & 1) << 15`
on `uint16_t`. -/
def lfsrStep (LSFR : Nat) : Nat :=
  ((LSFR >>> 1) ^^^ (((LSFR ^^^ (LSFR >>> 2) ^^^ (LSFR >>> 3) ^^^ (LSFR >>> 5)) &&& 1) <<< 15))
    % 65536

/-- The handler `A1CCR0ISR` of timer A1: the `while (1)` loop run for at most `fuel` passes;
`none` when the loop has not reached its `break` within them. -/
def A1CCR0ISR : Nat → State → Option State
  | 0, _ => none
  | fuel + 1, s =>
    let s := { s with LSFR := lfsrStep s.LSFR }
    let s := { s with LSFR_5b := s.LSFR &&& 0x001F }
    if s.indicators s.LSFR_5b = 0 then some (display s.LSFR_5b s)
    else A1CCR0ISR fuel s

/-! ## Start-up state and interrupt sequences -/

/-- The state when `main` reaches `while (1)`: static initialisers, both select lines
disabled (the other bits of the two ports taken as `0`), timer A1 started in up mode, timer B0
configured but not started. -/
def init : State where
  digits := fun _ => 0
  indicators := fun _ => 0
  LSFR_5b := 0
  cnt := 0
  LSFR := 1
  current_digit := 0
  TA1 := { running := true, count := 0 }
  TB := { running := false, count := 0 }
  P6OUT := BIT4
  P7OUT := BIT0
  tx := []
  led := []

/-- An interrupt being served. -/
inductive Event where
  /-- Timer B0 fires and `TBCCR0ISR` samples `P1IN`. -/
  | fire (P1IN : Nat)
  /-- Timer A1 fires and `A1CCR0ISR` runs (its loop within `fuel` passes). -/
  | tick (fuel : Nat)
  /-- Timer A0 fires and `A0CCR0ISR` runs. -/
  | mux
deriving DecidableEq, Repr

/-- Serve one interrupt; handlers run to completion, one at a time. Timer A1 raises its
interrupt only while it is running; `none` when the interrupt cannot occur or its handler does
not return. What starts timer B0 is not part of the model (the port-1 handler that would do
it on a button edge is commented out in `main.c`): `fire` may occur in every state. -/
def stepEv : Event → State → Option State
  | .fire P1IN, s => some (TBCCR0ISR P1IN s)
  | .tick fuel, s => if s.TA1.running then A1CCR0ISR fuel s else none
  | .mux, s => some (A0CCR0ISR s)

/-- Serve a sequence of interrupts, oldest first. -/
def run : List Event → State → Option State
  | [], s => some s
  | e :: es, s => (stepEv e s).bind (run es)

/-- Run of `k` LFSR updates that inspects every intermediate state (it stops at `0`, the fixed
point of `lfsrStep`); it computes `lfsrStep^[k]`, see `lfsrRun_eq`. -/
def lfsrRun : Nat → Nat → Nat
  | 0, s => s
  | k + 1, s =>
    match lfsrStep s with
    | 0 => 0
    | t + 1 => lfsrRun k (t + 1)

/-- A state in which the number 0 has been drawn: the tick needs twelve passes of its loop. -/
def visited0 : State := { init with indicators := arrSet init.indicators 0 1 }

/-- The states after each of the next `n` multiplexer interrupts, oldest first. -/
def muxStates : Nat → State → List State
  | 0, _ => []
  | n + 1, s => A0CCR0ISR s :: muxStates n (A0CCR0ISR s)

/-- The display position that is lit: position `0` shows `digits[0]` (SEL2 alone active),
position `1` shows `digits[1]` (SEL1 alone active); `none` when both or neither select line
is active. -/
def activePos (s : State) : Option Nat :=
  match sel2Active s, sel1Active s with
  | true, false => some 0
  | false, true => some 1
  | _, _ => none

/-- The value of `P1IN` with only the confirm button (S2, `P1.5`) held. -/
def pressConfirm : Nat := 0xFF ^^^ BIT5

/-- The value of `P1IN` with only the finalize button (S1, `P1.4`) held. -/
def pressFinalize : Nat := 0xFF ^^^ BIT4

/-- The value of `P1IN` with only the reset button (S3, `P1.1`) held. -/
def pressReset : Nat := 0xFF ^^^ BIT1

/-- What an observer sees of a state. -/
structure Observation where
  /-- The draw counter `cnt`. -/
  cnt : Int
  /-- Whether timer A1 (the generator) runs. -/
  generating : Bool
  /-- The tens position `digits[1]`. -/
  tens : Nat
  /-- The ones position `digits[0]`. -/
  ones : Nat
  /-- The latched candidate `LSFR_5b`. -/
  candidate : Nat
  /-- The bytes sent over the UART. -/
  sent : List Nat
deriving DecidableEq, Repr

/-- The observable part of a state. -/
def observe (s : State) : Observation :=
  { cnt := s.cnt, generating := s.TA1.running, tens := s.digits 1, ones := s.digits 0,
    candidate := s.LSFR_5b, sent := s.tx }

/-- Number of generator ticks in an interrupt sequence. -/
def countTicks : List Event → Nat
  | [] => 0
  | Event.tick _ :: es => countTicks es + 1
  | Event.fire _ :: es => countTicks es
  | Event.mux :: es => countTicks es

/-- The handler of timer B0 takes its confirm branch. -/
def isConfirm : Event → Bool
  | Event.fire P1IN => P1IN &&& BIT5 == 0
  | _ => false

/-- The handler of timer B0 takes its reset branch. -/
def isReset : Event → Bool
  | Event.fire P1IN => P1IN &&& BIT5 != 0 && P1IN &&& BIT4 != 0 && P1IN &&& BIT1 == 0
  | _ => false

/-- Both cells of `digits` hold decimal digits, or they hold the finished codes. -/
def digitsOk (s : State) : Prop :=
  (s.digits 1 ≤ 9 ∧ s.digits 0 ≤ 9) ∨ (s.digits 1 = 10 ∧ s.digits 0 = 11)

/-- Number of set slots among `indicators[0 .. 31]`. -/
def visitedCount (s : State) : Nat :=
  (List.range 32).countP (fun i => s.indicators i != 0)

/-- A state with seed `LSFR = 1` in which every number but 31 has been drawn. -/
def allBut31 : State := { init with indicators := fun i => if i = 31 then 0 else 1 }

/-- The number of confirm branches taken since the last reset branch, after one more
interrupt; `n` is that number before it. -/
def confirmsNext (n : Nat) (e : Event) : Nat :=
  if isReset e then 0 else if isConfirm e then n + 1 else n

/-- The number of confirm branches taken since the last reset branch, after a sequence of
interrupts; `n` is that number before it. -/
def confirmsAfter : Nat → List Event → Nat
  | n, [] => n
  | n, e :: es => confirmsAfter (confirmsNext n e) es

/-- Before, during and after the sequence, at most `b` confirm branches have been taken
since the last reset branch. -/
def confirmsBelow (b : Nat) : Nat → List Event → Bool
  | n, [] => decide (n ≤ b)
  | n, e :: es => decide (n ≤ b) && confirmsBelow b (confirmsNext n e) es

/-- Presses that fill `indicators`: 128 confirms, which wrap `cnt` to `-128`, then 31 rounds
of finalize (restarting timer A1), one generator tick and confirm. -/
def fillAll : List Event :=
  List.replicate 128 (Event.fire pressConfirm) ++
    (List.replicate 31
      [Event.fire pressFinalize, Event.tick 50, Event.fire pressConfirm]).flatten

/-- Bookkeeping of the draws along a run. -/
structure Draws where
  /-- Bytes stored to `UCA1TXBUF` by the confirm branch since the last reset branch, oldest
  first. -/
  drawn : List Nat
  /-- No byte has been sent by the confirm branch since the last generator tick, or none has
  been sent in this run at all. -/
  ticked : Bool
  /-- Every byte sent by the confirm branch so far was sent with `ticked` set: between two
  confirms that sent a byte there was a generator tick. -/
  separated : Bool
deriving DecidableEq, Repr

/-- The bytes stored to `UCA1TXBUF` on the way from `s` to `s'`. -/
def sentBy (s s' : State) : List Nat := s'.tx.drop s.tx.length

/-- The bookkeeping after the interrupt `e` has taken `s` to `s'`. -/
def drawsStep (e : Event) (s s' : State) (d : Draws) : Draws :=
  match e with
  | Event.tick _ => { d with ticked := true }
  | Event.mux => d
  | Event.fire P1IN =>
    if isReset (Event.fire P1IN) then { d with drawn := [] }
    else if isConfirm (Event.fire P1IN) then
      if (sentBy s s').isEmpty then d
      else { drawn := d.drawn ++ sentBy s s', ticked := false,
             separated := d.separated && d.ticked }
    else d

/-- Serve a sequence of interrupts, keeping the books of the draws. -/
def runDraws : List Event → State → Draws → Option (State × Draws)
  | [], s, d => some (s, d)
  | e :: es, s, d =>
    match stepEv e s with
    | none => none
    | some s' => runDraws es s' (drawsStep e s s' d)

/-- Two draws from start-up: a tick, confirm, finalize, a tick and confirm. -/
def twoDraws : List Event :=
  [Event.tick 1, Event.fire pressConfirm, Event.fire pressFinalize, Event.tick 12,
   Event.fire pressConfirm]

/-! ## The output stream of the LFSR, packed into one number

The definitions of this section are not in the source. They compute, inside one natural number,
which 5-bit candidates the generator meets within a window of advances; the theorems on the
retry loop are proved from them. -/

/-- Bit `q` of the output stream of the LFSR from seed 1: the low bit of the state after `q`
updates. -/
def streamBit (q : Nat) : Bool := (lfsrStep^[q] 1).testBit 0

/-- The feedback of `lfsrStep` on a window `T` of the stream: bit `j` is the exclusive or of
bits `j`, `j + 2`, `j + 3` and `j + 5` of `T`. -/
def streamMix (T : Nat) : Nat :=
  Nat.xor (Nat.xor (Nat.xor T (Nat.shiftRight T 2)) (Nat.shiftRight T 3)) (Nat.shiftRight T 5)

/-- The first `m` bits `S` of the stream, extended by the next 11 bits, which the feedback
gives from the last 16. -/
def streamExtend (S m : Nat) : Nat :=
  Nat.lor S (Nat.shiftLeft (Nat.mod (streamMix (Nat.shiftRight S (Nat.sub m 16))) 2048) m)

/-- The value `k n`, with `n` evaluated before `k` is entered. -/
def forceNat {α : Type} (n : Nat) (k : Nat → α) : α :=
  match n with
  | 0 => k 0
  | Nat.succ m => k (Nat.succ m)

/-- The first `m` bits `S` of the stream extended `n` times by 11 bits. -/
def streamGen : Nat → Nat → Nat → Nat
  | 0, S, _ => S
  | n + 1, S, m =>
    forceNat (streamExtend S m) fun S' =>
    forceNat (Nat.add m 11) fun m' => streamGen n S' m'

/-- The number `S` holds exactly the first `m` bits of the stream. -/
def streamUpTo (S m : Nat) : Prop :=
  ∀ q, S.testBit q = (decide (q < m) && streamBit q)

/-- The first `16 + 11 * 6000 = 66016` bits of the stream: one period of 65535 and 481 more. -/
def lfsrStream : Nat := streamGen 6000 1 16

/-- Bit `q` says that bit `q + k` of `S` equals bit `k` of `v` (for `q` below the width of
`ones`). -/
def bitPlane (S ones v k : Nat) : Nat :=
  match v.testBit k with
  | true => Nat.shiftRight S k
  | false => Nat.xor (Nat.shiftRight S k) ones

/-- Bit `q` says that the five stream bits from `q` on spell `v`: the LFSR state after `q`
updates has low five bits `v`. -/
def occMask (S ones v : Nat) : Nat :=
  Nat.land (bitPlane S ones v 0) (Nat.land (bitPlane S ones v 1) (Nat.land (bitPlane S ones v 2)
    (Nat.land (bitPlane S ones v 3) (bitPlane S ones v 4))))

/-- Bit `i` says that `M` has a bit set among the positions `i + 1`, ..., `i + d`. -/
def orShifts (M : Nat) : Nat → Nat
  | 0 => 0
  | Nat.succ d => Nat.lor (orShifts M d) (Nat.shiftRight M (Nat.succ d))

/-- Bit `i` says that `v` is the candidate after one of the updates `i + 1`, ..., `i + d`. -/
def windowMask (S ones d v : Nat) : Nat :=
  forceNat (occMask S ones v) fun M => orShifts M d

/-- At every position of `full`, each of the 32 values is a candidate within the next `d`
updates. -/
def gapCheckAt (S ones full d : Nat) : Bool :=
  (List.range 32).all fun v => Nat.beq (Nat.land (windowMask S ones d v) full) full

/-- One more value with window mask `P` counted into the thresholds `ts`: bit `i` of entry `j`
says that at least `j + 1` of the values counted so far have bit `i` set; `prev` is the entry
before the head. -/
def stepT (P : Nat) : Nat → List Nat → List Nat
  | _, [] => []
  | prev, t :: ts => forceNat (Nat.lor t (Nat.land prev P)) fun u => u :: stepT P t ts

/-- The thresholds 1 to 8 for the number of values below `n` that are candidates within the
next `d` updates. -/
def thermoRun (S ones full d : Nat) : Nat → List Nat
  | 0 => List.replicate 8 0
  | Nat.succ n =>
    forceNat (windowMask S ones d n) fun P => stepT P full (thermoRun S ones full d n)

/-- At every position of `full`, at least 8 of the 32 values are candidates within the next `d`
updates. -/
def windowCheckAt (S ones full d : Nat) : Bool :=
  Nat.beq (Nat.land (List.getD (thermoRun S ones full d 32) 7 0) full) full

/-- Both checks on the stream, at the 65535 positions of one period: every value within 397
updates, and 8 values within 32 updates. -/
def streamChecks : Bool :=
  forceNat lfsrStream fun S =>
  forceNat (2 ^ 66012 - 1) fun ones =>
  forceNat (2 ^ 65535 - 1) fun full =>
  gapCheckAt S ones full 397 && windowCheckAt S ones full 32

/-- A state with `LSFR = 0xDADF` in which every number but 31 has been drawn. -/
def farFrom31 : State := { allBut31 with LSFR := 0xDADF }

/-- A state with `LSFR = 0x777C` in which the seven numbers 14, 15, 23, 27, 29, 30 and 31 have
been drawn. -/
def sevenDrawn : State :=
  { init with
    LSFR := 0x777C
    indicators := fun i =>
      if i = 14 ∨ i = 15 ∨ i = 23 ∨ i = 27 ∨ i = 29 ∨ i = 30 ∨ i = 31 then 1 else 0 }

/-! ## `display` is binary to BCD -/

theorem display_digits (number : Nat) (s : State) :
    (display number s).digits 0 = displayData number 0 ∧
    (display number s).digits 1 = displayData number 1 := by
  simp [display, displayCopy, arrSet]

theorem display_digits_other (number : Nat) (s : State) (j : Nat) (h : 2 ≤ j) :
    (display number s).digits j = s.digits j := by
  have h0 : j ≠ 0 := by omega
  have h1 : j ≠ 1 := by omega
  simp [display, displayCopy, arrSet, h0, h1]

theorem displayData_table :
    ∀ n < 100, displayData n 0 = n % 10 ∧ displayData n 1 = n / 10 := by
  decide!

theorem display_digits_bcd (n : Nat) (s : State) (h : n ≤ 99) :
    (display n s).digits 1 = n / 10 ∧ (display n s).digits 0 = n % 10 := by
  have ht := displayData_table n (by omega)
  have hd := display_digits n s
  exact ⟨hd.2.trans ht.2, hd.1.trans ht.1⟩

/-- C1: for every `n` in `[0, 99]`, `display n` leaves the tens digit `n / 10` in `digits[1]`
and the ones digit `n % 10` in `digits[0]`. -/
theorem display_bcd (n : Nat) (s : State) (h : n ≤ 99) :
    (display n s).digits 1 = n / 10 ∧ (display n s).digits 0 = n % 10 :=
  display_digits_bcd n s h

theorem display_bcd_witness :
    57 ≤ 99 ∧ ((display 57 init).digits 1 = 57 / 10 ∧ (display 57 init).digits 0 = 57 % 10) :=
  ⟨by decide, display_bcd 57 init (by decide)⟩

/-! ## The LFSR has period 65535 -/

theorem lfsrStep_zero : lfsrStep 0 = 0 := by decide

theorem lfsrStep_iterate_zero (k : Nat) : lfsrStep^[k] 0 = 0 :=
  Function.iterate_fixed lfsrStep_zero k

theorem lfsrRun_eq (k : Nat) : ∀ s, lfsrRun k s = lfsrStep^[k] s := by
  induction k with
  | zero => intro s; rfl
  | succ k ih =>
    intro s
    rw [Function.iterate_succ_apply]
    unfold lfsrRun
    cases h : lfsrStep s with
    | zero => simp [lfsrStep_iterate_zero]
    | succ t => simpa using ih (t + 1)

theorem lfsr_at_255 : lfsrStep^[255] 1 = 17921 := by
  rw [← lfsrRun_eq]; decide!

theorem lfsr_at_3855 : lfsrStep^[3855] 1 = 51818 := by
  have h : lfsrStep^[3600] 17921 = 51818 := by rw [← lfsrRun_eq]; decide!
  rw [show 3855 = 3600 + 255 from rfl, Function.iterate_add_apply, lfsr_at_255, h]

theorem lfsr_at_13107 : lfsrStep^[13107] 1 = 28354 := by
  have h : lfsrStep^[9252] 51818 = 28354 := by rw [← lfsrRun_eq]; decide!
  rw [show 13107 = 9252 + 3855 from rfl, Function.iterate_add_apply, lfsr_at_3855, h]

theorem lfsr_at_21845 : lfsrStep^[21845] 1 = 13930 := by
  have h : lfsrStep^[8738] 28354 = 13930 := by rw [← lfsrRun_eq]; decide!
  rw [show 21845 = 8738 + 13107 from rfl, Function.iterate_add_apply, lfsr_at_13107, h]

theorem lfsr_at_65535 : lfsrStep^[65535] 1 = 1 := by
  have h : lfsrStep^[43690] 13930 = 1 := by rw [← lfsrRun_eq]; decide!
  rw [show 65535 = 43690 + 21845 from rfl, Function.iterate_add_apply, lfsr_at_21845, h]

theorem prime_dvd_65535 (p : Nat) (hp : p.Prime) (h : p ∣ 65535) :
    p = 3 ∨ p = 5 ∨ p = 17 ∨ p = 257 := by
  have e : (65535 : Nat) = 3 * (5 * (17 * 257)) := by norm_num
  rw [e] at h
  rcases (Nat.Prime.dvd_mul hp).1 h with h | h
  · left; exact (Nat.prime_dvd_prime_iff_eq hp (by norm_num)).1 h
  rcases (Nat.Prime.dvd_mul hp).1 h with h | h
  · right; left; exact (Nat.prime_dvd_prime_iff_eq hp (by norm_num)).1 h
  rcases (Nat.Prime.dvd_mul hp).1 h with h | h
  · right; right; left; exact (Nat.prime_dvd_prime_iff_eq hp (by norm_num)).1 h
  · right; right; right; exact (Nat.prime_dvd_prime_iff_eq hp (by norm_num)).1 h

open Function in
theorem minimalPeriod_eq_65535 (f : Nat → Nat) (x : Nat)
    (h : f^[65535] x = x) (h3 : f^[21845] x ≠ x) (h5 : f^[13107] x ≠ x)
    (h17 : f^[3855] x ≠ x) (h257 : f^[255] x ≠ x) :
    minimalPeriod f x = 65535 := by
  have hper : IsPeriodicPt f 65535 x := h
  obtain ⟨m, hm⟩ := hper.minimalPeriod_dvd
  by_contra hne
  have hm1 : m ≠ 1 := by
    rintro rfl
    exact hne (by omega)
  have hpp := Nat.minFac_prime hm1
  obtain ⟨q, hq⟩ := Nat.minFac_dvd m
  have hdvd : m.minFac ∣ 65535 := ⟨minimalPeriod f x * q, by rw [hm]; nth_rewrite 1 [hq]; ring⟩
  have key : ∀ p, m.minFac = p → 0 < p → minimalPeriod f x ∣ 65535 / p := by
    intro p hp hpos
    refine ⟨q, ?_⟩
    apply Nat.div_eq_of_eq_mul_right hpos
    rw [hm]; nth_rewrite 1 [hq]; rw [hp]; ring
  rcases prime_dvd_65535 _ hpp hdvd with hp | hp | hp | hp
  · exact h3 ((isPeriodicPt_iff_minimalPeriod_dvd).2 (key 3 hp (by norm_num)))
  · exact h5 ((isPeriodicPt_iff_minimalPeriod_dvd).2 (key 5 hp (by norm_num)))
  · exact h17 ((isPeriodicPt_iff_minimalPeriod_dvd).2 (key 17 hp (by norm_num)))
  · exact h257 ((isPeriodicPt_iff_minimalPeriod_dvd).2 (key 257 hp (by norm_num)))

theorem lfsr_minimalPeriod : Function.minimalPeriod lfsrStep 1 = 65535 := by
  apply minimalPeriod_eq_65535 _ _ lfsr_at_65535
  · rw [lfsr_at_21845]; decide
  · rw [lfsr_at_13107]; decide
  · rw [lfsr_at_3855]; decide
  · rw [lfsr_at_255]; decide

theorem lfsr_iterate_ne_one (k : Nat) (h0 : 0 < k) (hk : k < 65535) : lfsrStep^[k] 1 ≠ 1 := by
  have h := Function.not_isPeriodicPt_of_pos_of_lt_minimalPeriod (f := lfsrStep) (x := 1)
    (Nat.pos_iff_ne_zero.1 h0) (by rw [lfsr_minimalPeriod]; exact hk)
  exact h

theorem lfsr_iterate_ne_zero (k : Nat) : lfsrStep^[k] 1 ≠ 0 := by
  intro h
  have hper : ∀ m, lfsrStep^[65535 * m] 1 = 1 := fun m =>
    (Function.IsPeriodicPt.mul_const (f := lfsrStep) (x := 1) lfsr_at_65535 m)
  have h1 := hper (k + 1)
  have e : 65535 * (k + 1) = (65535 * (k + 1) - k) + k := by omega
  rw [e, Function.iterate_add_apply, h, lfsrStep_iterate_zero] at h1
  exact absurd h1 (by decide)

theorem lfsrStep_lt (s : Nat) : lfsrStep s < 65536 := by
  unfold lfsrStep
  exact Nat.mod_lt _ (by decide)

/-- C2: from seed 1 the LFSR update returns to 1 after exactly 65535 steps and not earlier, and
the states after 1, ..., 65535 steps are nonzero 16-bit words that are pairwise distinct. -/
theorem lfsr_maximal_length :
    lfsrStep^[65535] 1 = 1 ∧
    (∀ k, 0 < k → k < 65535 → lfsrStep^[k] 1 ≠ 1) ∧
    (∀ k, 1 ≤ k → k ≤ 65535 → lfsrStep^[k] 1 ≠ 0 ∧ lfsrStep^[k] 1 < 65536) ∧
    (∀ i j, 1 ≤ i → i < j → j ≤ 65535 → lfsrStep^[i] 1 ≠ lfsrStep^[j] 1) := by
  refine ⟨lfsr_at_65535, lfsr_iterate_ne_one, ?_, ?_⟩
  · intro k h1 _
    refine ⟨lfsr_iterate_ne_zero k, ?_⟩
    obtain ⟨m, rfl⟩ : ∃ m, k = m + 1 := ⟨k - 1, by omega⟩
    rw [Function.iterate_succ_apply']
    exact lfsrStep_lt _
  · intro i j hi hij hj heq
    have h := congrArg (lfsrStep^[65535 - j]) heq
    rw [← Function.iterate_add_apply, ← Function.iterate_add_apply,
      show 65535 - j + j = 65535 by omega, lfsr_at_65535] at h
    exact lfsr_iterate_ne_one (65535 - j + i) (by omega) (by omega) h

/-! ## The generator tick -/

theorem run_append (es fs : List Event) (s : State) :
    run (es ++ fs) s = (run es s).bind (run fs) := by
  induction es generalizing s with
  | nil => simp [run]
  | cons e es ih =>
    simp only [List.cons_append, run]
    cases stepEv e s with
    | none => simp
    | some s1 => simpa using ih s1

theorem land_31_lt (x : Nat) : x &&& 0x001F < 32 :=
  Nat.lt_of_le_of_lt Nat.and_le_right (by decide)

theorem A1CCR0ISR_free (fuel : Nat) (s : State)
    (hfree : s.indicators (lfsrStep s.LSFR &&& 0x001F) = 0) :
    A1CCR0ISR (fuel + 1) s = some (display (lfsrStep s.LSFR &&& 0x001F)
      { s with LSFR := lfsrStep s.LSFR, LSFR_5b := lfsrStep s.LSFR &&& 0x001F }) := by
  simp only [A1CCR0ISR]
  rw [if_pos hfree]

theorem display_frame (n : Nat) (s : State) :
    (display n s).indicators = s.indicators ∧ (display n s).LSFR = s.LSFR ∧
    (display n s).LSFR_5b = s.LSFR_5b ∧ (display n s).cnt = s.cnt ∧
    (display n s).TA1 = s.TA1 ∧ (display n s).TB = s.TB ∧ (display n s).tx = s.tx :=
  ⟨rfl, rfl, rfl, rfl, rfl, rfl, rfl⟩

theorem A1CCR0ISR_spec (fuel : Nat) : ∀ (s s' : State), A1CCR0ISR fuel s = some s' →
    s'.LSFR_5b = s'.LSFR &&& 0x001F ∧ s.indicators s'.LSFR_5b = 0 ∧
    s'.indicators = s.indicators ∧
    s'.digits 1 = s'.LSFR_5b / 10 ∧ s'.digits 0 = s'.LSFR_5b % 10 := by
  induction fuel with
  | zero => intro s s' h; simp [A1CCR0ISR] at h
  | succ fuel ih =>
    intro s s' h
    simp only [A1CCR0ISR] at h
    split at h
    · rename_i hfree
      injection h with h
      subst h
      have hb := display_digits_bcd (lfsrStep s.LSFR &&& 0x001F)
        { s with LSFR := lfsrStep s.LSFR, LSFR_5b := lfsrStep s.LSFR &&& 0x001F }
        (by have := land_31_lt (lfsrStep s.LSFR); omega)
      exact ⟨rfl, hfree, rfl, hb.1, hb.2⟩
    · have k := ih _ s' h
      exact ⟨k.1, k.2.1, k.2.2.1, k.2.2.2⟩

/-- C3: when a generator tick returns, the latched candidate `LSFR_5b` is the low five bits of
the new LFSR state, its slot of `indicators` was `0` when it was written (and `indicators` is
untouched), and `digits` holds its BCD digits; so after any interrupt sequence that ends with
a generator tick, the candidate on display was unvisited in the state the tick started from. -/
theorem tick_candidate_unvisited :
    (∀ (fuel : Nat) (s s' : State), A1CCR0ISR fuel s = some s' →
      s'.LSFR_5b = s'.LSFR &&& 0x001F ∧ s.indicators s'.LSFR_5b = 0 ∧
      s'.indicators = s.indicators ∧
      s'.digits 1 = s'.LSFR_5b / 10 ∧ s'.digits 0 = s'.LSFR_5b % 10) ∧
    (∀ (es : List Event) (fuel : Nat) (s0 s' : State),
      run (es ++ [Event.tick fuel]) s0 = some s' →
      ∃ s, run es s0 = some s ∧ s.indicators s'.LSFR_5b = 0 ∧
        s'.digits 1 = s'.LSFR_5b / 10 ∧ s'.digits 0 = s'.LSFR_5b % 10) := by
  refine ⟨A1CCR0ISR_spec, ?_⟩
  intro es fuel s0 s' h
  rw [run_append] at h
  cases hs : run es s0 with
  | none => simp [hs] at h
  | some s =>
    simp only [hs, Option.some_bind, run, stepEv] at h
    split at h
    · cases ht : A1CCR0ISR fuel s with
      | none => simp [ht] at h
      | some s1 =>
        simp only [ht, Option.some_bind] at h
        injection h with h
        subst h
        have k := A1CCR0ISR_spec fuel s s1 ht
        exact ⟨s, rfl, k.2.1, k.2.2.2⟩
    · simp at h

theorem tick_candidate_unvisited_witness :
    A1CCR0ISR 12 visited0 = some (display 16 { visited0 with LSFR := 0x8010, LSFR_5b := 16 }) ∧
    visited0.indicators 16 = 0 :=
  ⟨rfl, (tick_candidate_unvisited.1 12 visited0
    (display 16 { visited0 with LSFR := 0x8010, LSFR_5b := 16 }) rfl).2.1⟩

/-! ## Command dispatch -/

theorem clearLoop_spec (k : Nat) : ∀ (ind : Nat → Nat) (i : Nat),
    clearLoop k ind i = if i < k then 0 else ind i := by
  induction k with
  | zero => intro ind i; simp [clearLoop]
  | succ k ih =>
    intro ind i
    rw [clearLoop, ih]
    by_cases h1 : i < k
    · simp [h1, Nat.lt_succ_of_lt h1]
    · by_cases h2 : i = k
      · simp [h2, arrSet]
      · have h3 : ¬ i < k + 1 := by omega
        simp [h1, h2, h3, arrSet]

theorem TBCCR0ISR_confirm (P1IN : Nat) (s : State) (h : P1IN &&& BIT5 = 0) :
    TBCCR0ISR P1IN s = confirmAction s := by
  simp [TBCCR0ISR, h]

theorem TBCCR0ISR_finalize (P1IN : Nat) (s : State) (h5 : P1IN &&& BIT5 ≠ 0)
    (h4 : P1IN &&& BIT4 = 0) : TBCCR0ISR P1IN s = finalizeAction s := by
  simp [TBCCR0ISR, h5, h4]

theorem TBCCR0ISR_reset (P1IN : Nat) (s : State) (h5 : P1IN &&& BIT5 ≠ 0)
    (h4 : P1IN &&& BIT4 ≠ 0) (h1 : P1IN &&& BIT1 = 0) : TBCCR0ISR P1IN s = resetAction s := by
  simp [TBCCR0ISR, h5, h4, h1]

theorem confirmAction_frame (s : State) :
    (confirmAction s).digits = s.digits ∧ (confirmAction s).LSFR = s.LSFR ∧
    (confirmAction s).LSFR_5b = s.LSFR_5b ∧ (confirmAction s).cnt = toInt8 (s.cnt + 1) ∧
    (confirmAction s).TA1.running = false ∧ (confirmAction s).TB.running = false := by
  unfold confirmAction
  simp only
  split <;> simp

theorem confirmAction_indicators (s : State) :
    (confirmAction s).indicators =
      if toInt8 (s.cnt + 1) < 8 then arrSet s.indicators s.LSFR_5b 1 else s.indicators := by
  unfold confirmAction
  simp only
  split <;> rfl

theorem confirmAction_tx (s : State) :
    (confirmAction s).tx =
      if toInt8 (s.cnt + 1) < 8 then s.tx ++ [s.LSFR_5b % 256] else s.tx := by
  unfold confirmAction
  simp only
  split <;> rfl

theorem toInt8_of_range (x : Int) (h1 : -128 ≤ x) (h2 : x ≤ 127) : toInt8 x = x := by
  unfold toInt8
  omega

/-- C4: the handler serves the buttons by priority. With confirm held the result is that of
the confirm branch, the same whatever the other two levels are: `digits` is untouched and no
set slot of `indicators` is cleared. With confirm released and finalize held the result is
that of the finalize branch, whatever the level of reset. -/
theorem dispatch_priority (P1IN : Nat) (s : State) :
    (P1IN &&& BIT5 = 0 →
      TBCCR0ISR P1IN s = confirmAction s ∧
      TBCCR0ISR P1IN s = TBCCR0ISR (0xFF ^^^ BIT5) s ∧
      (TBCCR0ISR P1IN s).digits = s.digits ∧
      ∀ i, s.indicators i ≠ 0 → (TBCCR0ISR P1IN s).indicators i ≠ 0) ∧
    (P1IN &&& BIT5 ≠ 0 → P1IN &&& BIT4 = 0 →
      TBCCR0ISR P1IN s = finalizeAction s ∧
      TBCCR0ISR P1IN s = TBCCR0ISR (0xFF ^^^ BIT4) s) := by
  constructor
  · intro h
    rw [TBCCR0ISR_confirm P1IN s h, TBCCR0ISR_confirm (0xFF ^^^ BIT5) s (by decide)]
    refine ⟨rfl, rfl, (confirmAction_frame s).1, ?_⟩
    intro i hi
    rw [confirmAction_indicators]
    split
    · unfold arrSet
      split
      · decide
      · exact hi
    · exact hi
  · intro h5 h4
    rw [TBCCR0ISR_finalize P1IN s h5 h4,
      TBCCR0ISR_finalize (0xFF ^^^ BIT4) s (by decide) (by decide)]
    exact ⟨rfl, rfl⟩

theorem dispatch_priority_witness :
    TBCCR0ISR 0 init = confirmAction init ∧
    TBCCR0ISR (BIT5 ||| BIT0) init = finalizeAction init :=
  ⟨((dispatch_priority 0 init).1 (by decide)).1,
   ((dispatch_priority (BIT5 ||| BIT0) init).2 (by decide) (by decide)).1⟩

/-- C10: with confirm released and finalize held, the handler stops the debounce timer and
leaves `indicators` and `cnt` alone; when `cnt >= 7` it stores the finished codes
(`digits[1] = 10`, `digits[0] = 11`), emits a line feed and leaves timer A1 as it was; when
`cnt < 7` it starts timer A1, emits nothing and leaves `digits` alone. -/
theorem finalize_action (P1IN : Nat) (s : State)
    (h5 : P1IN &&& BIT5 ≠ 0) (h4 : P1IN &&& BIT4 = 0) :
    (TBCCR0ISR P1IN s).TB.running = false ∧
    (TBCCR0ISR P1IN s).indicators = s.indicators ∧
    (TBCCR0ISR P1IN s).cnt = s.cnt ∧
    (7 ≤ s.cnt →
      (TBCCR0ISR P1IN s).digits 1 = 10 ∧ (TBCCR0ISR P1IN s).digits 0 = 11 ∧
      (TBCCR0ISR P1IN s).tx = s.tx ++ [10] ∧ (TBCCR0ISR P1IN s).TA1 = s.TA1) ∧
    (s.cnt < 7 →
      (TBCCR0ISR P1IN s).TA1.running = true ∧ (TBCCR0ISR P1IN s).tx = s.tx ∧
      (TBCCR0ISR P1IN s).digits = s.digits) := by
  rw [TBCCR0ISR_finalize P1IN s h5 h4]
  unfold finalizeAction
  simp only
  by_cases h : 7 ≤ s.cnt
  · have h' : ¬ s.cnt < 7 := by omega
    simp [h, h', arrSet]
  · have h' : s.cnt < 7 := by omega
    simp [h, h']

theorem finalize_action_witness :
    (TBCCR0ISR 0xEF init).TA1.running = true ∧
    (TBCCR0ISR 0xEF { init with cnt := 7 }).digits 1 = 10 :=
  ⟨((finalize_action 0xEF init (by decide) (by decide)).2.2.2.2 (by decide)).1,
   ((finalize_action 0xEF { init with cnt := 7 } (by decide) (by decide)).2.2.2.1
      (by decide)).1⟩

/-- C6: after the reset branch all 32 slots of `indicators` are `0`, `cnt` is `0` and timer A1
runs; the generator tick that follows returns after one pass of its loop (whatever its
bound) with the LFSR advanced once and its low five bits latched and on display. -/
theorem reset_complete (P1IN : Nat) (s : State)
    (h5 : P1IN &&& BIT5 ≠ 0) (h4 : P1IN &&& BIT4 ≠ 0) (h1 : P1IN &&& BIT1 = 0) :
    (∀ i, i < 32 → (TBCCR0ISR P1IN s).indicators i = 0) ∧
    (TBCCR0ISR P1IN s).cnt = 0 ∧
    (TBCCR0ISR P1IN s).TA1.running = true ∧
    (TBCCR0ISR P1IN s).tx = s.tx ++ [10] ∧
    ∀ fuel, ∃ s', stepEv (Event.tick (fuel + 1)) (TBCCR0ISR P1IN s) = some s' ∧
      s'.LSFR = lfsrStep s.LSFR ∧ s'.LSFR_5b = lfsrStep s.LSFR &&& 0x001F ∧
      s'.digits 1 = s'.LSFR_5b / 10 ∧ s'.digits 0 = s'.LSFR_5b % 10 := by
  rw [TBCCR0ISR_reset P1IN s h5 h4 h1]
  have hind : ∀ i, i < 32 → (resetAction s).indicators i = 0 := by
    intro i hi
    simp [resetAction, clearLoop_spec, hi]
  refine ⟨hind, rfl, rfl, rfl, ?_⟩
  intro fuel
  have hfree := hind (lfsrStep s.LSFR &&& 0x001F) (land_31_lt _)
  have hb := display_digits_bcd (lfsrStep s.LSFR &&& 0x001F)
    { resetAction s with LSFR := lfsrStep s.LSFR, LSFR_5b := lfsrStep s.LSFR &&& 0x001F }
    (by have := land_31_lt (lfsrStep s.LSFR); omega)
  refine ⟨_, ?_, rfl, rfl, hb.1, hb.2⟩
  have hrun : (resetAction s).TA1.running = true := rfl
  have hl : (resetAction s).LSFR = s.LSFR := rfl
  simp only [stepEv, hrun, if_true, A1CCR0ISR]
  rw [hl, if_pos hfree]

theorem reset_complete_witness :
    (TBCCR0ISR 0xFD visited0).indicators 0 = 0 ∧ (TBCCR0ISR 0xFD visited0).cnt = 0 :=
  ⟨(reset_complete 0xFD visited0 (by decide) (by decide) (by decide)).1 0 (by decide),
   (reset_complete 0xFD visited0 (by decide) (by decide) (by decide)).2.1⟩

/-! ## The display multiplexer -/

theorem or_and_self_ne (x m : Nat) (hm : m ≠ 0) : (x ||| m) &&& m ≠ 0 := by
  have h : (x ||| m) &&& m = m := by
    apply Nat.eq_of_testBit_eq
    intro i
    simp only [Nat.testBit_and, Nat.testBit_or]
    cases x.testBit i <;> cases m.testBit i <;> rfl
  rw [h]; exact hm

theorem and_and_disjoint (x a b : Nat) (h : a &&& b = 0) : (x &&& a) &&& b = 0 := by
  rw [Nat.and_assoc, h]; simp

theorem A0CCR0ISR_tick (s : State) (h : s.current_digit = 0 ∨ s.current_digit = 1) :
    (A0CCR0ISR s).led = s.led ++ [s.digits s.current_digit] ∧
    activePos (A0CCR0ISR s) = some s.current_digit ∧
    (A0CCR0ISR s).current_digit = (s.current_digit + 1) % 2 ∧
    (A0CCR0ISR s).digits = s.digits := by
  rcases h with h | h
  · have e1 : sel2Active (A0CCR0ISR s) = true := by
      simp [A0CCR0ISR, h, WriteLed, sel2Active, and_and_disjoint _ (0xFF ^^^ BIT4) BIT4 (by decide)]
    have e2 : sel1Active (A0CCR0ISR s) = false := by
      simp [A0CCR0ISR, h, WriteLed, sel1Active, or_and_self_ne _ BIT0 (by decide)]
    refine ⟨?_, ?_, ?_, ?_⟩
    · simp [A0CCR0ISR, h, WriteLed]
    · simp [activePos, e1, e2, h]
    · simp [A0CCR0ISR, h, WriteLed]
    · simp [A0CCR0ISR, h, WriteLed]
  · have e1 : sel2Active (A0CCR0ISR s) = false := by
      simp [A0CCR0ISR, h, WriteLed, sel2Active, or_and_self_ne _ BIT4 (by decide)]
    have e2 : sel1Active (A0CCR0ISR s) = true := by
      simp [A0CCR0ISR, h, WriteLed, sel1Active, and_and_disjoint _ (0xFF ^^^ BIT0) BIT0 (by decide)]
    refine ⟨?_, ?_, ?_, ?_⟩
    · simp [A0CCR0ISR, h, WriteLed]
    · simp [activePos, e1, e2, h]
    · simp [A0CCR0ISR, h, WriteLed]
    · simp [A0CCR0ISR, h, WriteLed]

theorem muxStates_activePos (n : Nat) : ∀ (s : State),
    s.current_digit = 0 ∨ s.current_digit = 1 →
    (muxStates n s).map activePos =
      (List.range n).map (fun k => some ((s.current_digit + k) % 2)) := by
  induction n with
  | zero => intro s _; rfl
  | succ n ih =>
    intro s h
    have ht := A0CCR0ISR_tick s h
    have h' : (A0CCR0ISR s).current_digit = 0 ∨ (A0CCR0ISR s).current_digit = 1 := by
      rw [ht.2.2.1]; omega
    rw [muxStates, List.map_cons, ih _ h', ht.2.1, List.range_succ_eq_map, List.map_cons,
      List.map_map]
    congr 1
    · congr 1
      rcases h with h | h <;> simp [h]
    · apply List.map_congr_left
      intro k _
      simp only [Function.comp, ht.2.2.1]
      congr 1
      omega

theorem alt_count (i p : Nat) (hi : i ≤ 1) (hp : p ≤ 1) (m : Nat) :
    ((List.range (2 * m)).map (fun k => some ((i + k) % 2))).count (some p) = m := by
  induction m with
  | zero => rfl
  | succ m ih =>
    rw [show 2 * (m + 1) = 2 * m + 1 + 1 by ring, List.range_succ, List.range_succ]
    simp only [List.map_append, List.count_append, ih, List.map_cons, List.map_nil,
      List.count_cons, List.count_nil]
    have h1 : (i + 2 * m) % 2 = i := by omega
    have h2 : (i + (2 * m + 1)) % 2 = 1 - i := by omega
    rw [h1, h2]
    interval_cases i <;> interval_cases p <;> simp

theorem activePos_some (t : State) (p : Nat) (h : activePos t = some p) :
    sel1Active t ≠ sel2Active t := by
  unfold activePos at h
  cases h1 : sel1Active t <;> cases h2 : sel2Active t <;> simp [h1, h2] at h ⊢

/-- C7: with `current_digit` being `0` or `1`, a multiplexer tick hands `digits[current_digit]`
to `WriteLed`, leaves exactly the position of that index lit and flips `current_digit`; so the
position lit after the `k+1`-th of `N` consecutive ticks is `(current_digit + k) % 2`, two
consecutive ticks never light the same position, exactly one select line is active after every
tick, and for even `N` each position is lit by exactly `N / 2` of the ticks. -/
theorem mux_alternation (s : State) (h : s.current_digit = 0 ∨ s.current_digit = 1) :
    ((A0CCR0ISR s).led = s.led ++ [s.digits s.current_digit] ∧
      activePos (A0CCR0ISR s) = some s.current_digit ∧
      (A0CCR0ISR s).current_digit = 1 - s.current_digit) ∧
    (∀ N k, k < N →
      ((muxStates N s).map activePos)[k]? = some (some ((s.current_digit + k) % 2))) ∧
    (∀ N k, k + 1 < N →
      ((muxStates N s).map activePos)[k]? ≠ ((muxStates N s).map activePos)[k + 1]?) ∧
    (∀ N t, t ∈ muxStates N s → sel1Active t ≠ sel2Active t) ∧
    (∀ N, N % 2 = 0 →
      ((muxStates N s).map activePos).count (some 0) = N / 2 ∧
      ((muxStates N s).map activePos).count (some 1) = N / 2) := by
  have ht := A0CCR0ISR_tick s h
  have hcd : s.current_digit ≤ 1 := by omega
  have hk : ∀ N k, k < N →
      ((muxStates N s).map activePos)[k]? = some (some ((s.current_digit + k) % 2)) := by
    intro N k hkN
    rw [muxStates_activePos N s h]
    simp [List.getElem?_map, List.getElem?_range hkN]
  refine ⟨⟨ht.1, ht.2.1, ?_⟩, hk, ?_, ?_, ?_⟩
  · rw [ht.2.2.1]; omega
  · intro N k hkN
    rw [hk N k (by omega), hk N (k + 1) hkN]
    intro e
    injection e with e
    injection e with e
    omega
  · intro N t htN
    have hm : activePos t ∈ (muxStates N s).map activePos := List.mem_map_of_mem _ htN
    rw [muxStates_activePos N s h] at hm
    obtain ⟨k, _, hk'⟩ := List.mem_map.1 hm
    exact activePos_some t _ hk'.symm
  · intro N hN
    obtain ⟨m, rfl⟩ : ∃ m, N = 2 * m := ⟨N / 2, by omega⟩
    rw [muxStates_activePos _ s h, alt_count _ 0 hcd (by decide) m,
      alt_count _ 1 hcd (by decide) m]
    omega

theorem mux_alternation_witness :
    ((muxStates 4 init).map activePos).count (some 0) = 4 / 2 ∧
    ((muxStates 4 init).map activePos).count (some 1) = 4 / 2 :=
  (mux_alternation init (Or.inl rfl)).2.2.2.2 4 (by decide)

/-! ## Runs in which nothing is visited, and runs without reset -/

theorem TBCCR0ISR_LSFR (P1IN : Nat) (s : State) : (TBCCR0ISR P1IN s).LSFR = s.LSFR := by
  unfold TBCCR0ISR confirmAction finalizeAction resetAction
  simp only
  split_ifs <;> rfl

theorem A0CCR0ISR_frame (s : State) :
    (A0CCR0ISR s).LSFR = s.LSFR ∧ (A0CCR0ISR s).digits = s.digits ∧
    (A0CCR0ISR s).indicators = s.indicators ∧ (A0CCR0ISR s).cnt = s.cnt ∧
    (A0CCR0ISR s).TA1 = s.TA1 ∧ (A0CCR0ISR s).LSFR_5b = s.LSFR_5b := by
  unfold A0CCR0ISR WriteLed
  simp only
  split_ifs <;> exact ⟨rfl, rfl, rfl, rfl, rfl, rfl⟩

theorem stepEv_tick_some (fuel : Nat) (s s1 : State) (h : stepEv (Event.tick fuel) s = some s1)
    (hfree : s.indicators (lfsrStep s.LSFR &&& 0x001F) = 0) :
    s1 = display (lfsrStep s.LSFR &&& 0x001F)
      { s with LSFR := lfsrStep s.LSFR, LSFR_5b := lfsrStep s.LSFR &&& 0x001F } := by
  simp only [stepEv] at h
  split at h
  · cases fuel with
    | zero => simp [A1CCR0ISR] at h
    | succ g =>
      rw [A1CCR0ISR_free g s hfree] at h
      injection h with h
      exact h.symm
  · simp at h

theorem run_LSFR_unvisited (es : List Event) : ∀ (s s' : State), run es s = some s' →
    (∀ es1 s1, es1 <+: es → run es1 s = some s1 → ∀ i, i < 32 → s1.indicators i = 0) →
    s'.LSFR = lfsrStep^[countTicks es] s.LSFR := by
  induction es with
  | nil =>
    intro s s' h _
    simp only [run] at h
    injection h with h
    subst h
    rfl
  | cons e es ih =>
    intro s s' h hemp
    have hs := hemp [] s List.nil_prefix rfl
    simp only [run] at h
    cases h1 : stepEv e s with
    | none => simp [h1] at h
    | some s1 =>
      simp only [h1, Option.some_bind] at h
      have hemp1 : ∀ es1 s2, es1 <+: es → run es1 s1 = some s2 →
          ∀ i, i < 32 → s2.indicators i = 0 := by
        intro es1 s2 hp hr
        apply hemp (e :: es1) s2 ((List.cons_prefix_cons).2 ⟨rfl, hp⟩)
        simp only [run, h1, Option.some_bind]
        exact hr
      have hi := ih s1 s' h hemp1
      cases e with
      | fire p =>
        simp only [stepEv] at h1
        injection h1 with h1
        rw [hi, ← h1, TBCCR0ISR_LSFR]
        rfl
      | tick f =>
        have e1 := stepEv_tick_some f s s1 h1 (hs _ (land_31_lt _))
        rw [hi, e1]
        simp only [countTicks, Function.iterate_succ_apply]
        rfl
      | mux =>
        simp only [stepEv] at h1
        injection h1 with h1
        rw [hi, ← h1, (A0CCR0ISR_frame s).1]
        rfl

theorem A1CCR0ISR_frame (fuel : Nat) : ∀ (s s' : State), A1CCR0ISR fuel s = some s' →
    s'.cnt = s.cnt ∧ s'.TA1 = s.TA1 ∧ s'.tx = s.tx ∧ s'.indicators = s.indicators := by
  induction fuel with
  | zero => intro s s' h; simp [A1CCR0ISR] at h
  | succ fuel ih =>
    intro s s' h
    simp only [A1CCR0ISR] at h
    split at h
    · injection h with h
      subst h
      exact ⟨rfl, rfl, rfl, rfl⟩
    · have k := ih _ s' h
      exact ⟨k.1, k.2.1, k.2.2.1, k.2.2.2⟩

theorem fire_cases (P1IN : Nat) (s : State) :
    (isConfirm (Event.fire P1IN) = true ∧ TBCCR0ISR P1IN s = confirmAction s) ∨
    (isConfirm (Event.fire P1IN) = false ∧ isReset (Event.fire P1IN) = false ∧
      TBCCR0ISR P1IN s = finalizeAction s) ∨
    (isConfirm (Event.fire P1IN) = false ∧ isReset (Event.fire P1IN) = true ∧
      TBCCR0ISR P1IN s = resetAction s) ∨
    (isConfirm (Event.fire P1IN) = false ∧ isReset (Event.fire P1IN) = false ∧
      TBCCR0ISR P1IN s = s) := by
  by_cases h5 : P1IN &&& BIT5 = 0
  · left
    exact ⟨by simp [isConfirm, h5], TBCCR0ISR_confirm P1IN s h5⟩
  · by_cases h4 : P1IN &&& BIT4 = 0
    · right; left
      exact ⟨by simp [isConfirm, h5], by simp [isReset, h4], TBCCR0ISR_finalize P1IN s h5 h4⟩
    · by_cases h1 : P1IN &&& BIT1 = 0
      · right; right; left
        exact ⟨by simp [isConfirm, h5], by simp [isReset, h5, h4, h1],
          TBCCR0ISR_reset P1IN s h5 h4 h1⟩
      · right; right; right
        exact ⟨by simp [isConfirm, h5], by simp [isReset, h1], by simp [TBCCR0ISR, h5, h4, h1]⟩

theorem finalizeAction_frame (s : State) :
    (finalizeAction s).cnt = s.cnt ∧ (finalizeAction s).indicators = s.indicators ∧
    (finalizeAction s).LSFR = s.LSFR ∧ (finalizeAction s).LSFR_5b = s.LSFR_5b ∧
    (7 ≤ s.cnt → (finalizeAction s).TA1 = s.TA1 ∧
      (finalizeAction s).digits 1 = 10 ∧ (finalizeAction s).digits 0 = 11) ∧
    (s.cnt < 7 → (finalizeAction s).TA1.running = true ∧
      (finalizeAction s).digits = s.digits) := by
  unfold finalizeAction
  simp only
  by_cases h : 7 ≤ s.cnt
  · have h' : ¬ s.cnt < 7 := by omega
    simp [h, h', arrSet]
  · have h' : s.cnt < 7 := by omega
    simp [h, h']

theorem run_cnt_no_reset (es : List Event) : ∀ (s s' : State), run es s = some s' →
    (∀ e ∈ es, isReset e = false) → -128 ≤ s.cnt → s.cnt + es.countP isConfirm ≤ 127 →
    (7 ≤ s.cnt → s.TA1.running = false) →
    s'.cnt = s.cnt + es.countP isConfirm ∧ (7 ≤ s'.cnt → s'.TA1.running = false) := by
  induction es with
  | nil =>
    intro s s' h _ _ _ hinv
    simp only [run] at h
    injection h with h
    subst h
    simpa using hinv
  | cons e es ih =>
    intro s s' h hnr hlo hhi hinv
    simp only [run] at h
    cases h1 : stepEv e s with
    | none => simp [h1] at h
    | some s1 =>
      simp only [h1, Option.some_bind] at h
      have hnr' : ∀ e' ∈ es, isReset e' = false := fun e' he' => hnr e' (List.mem_cons_of_mem _ he')
      have hre := hnr e (List.mem_cons_self _ _)
      have key : s1.cnt = s.cnt + (if isConfirm e = true then 1 else 0) ∧
          (7 ≤ s1.cnt → s1.TA1.running = false) := by
        cases e with
        | fire p =>
          simp only [stepEv] at h1
          injection h1 with h1
          rcases fire_cases p s with ⟨hc, ha⟩ | ⟨hc, _, ha⟩ | ⟨_, hr, _⟩ | ⟨hc, _, ha⟩
          · have hcount : 0 < List.countP isConfirm (Event.fire p :: es) :=
              List.countP_pos_iff.2 ⟨_, List.mem_cons_self _ _, hc⟩
            have hf := confirmAction_frame s
            rw [← h1, ha, hc, hf.2.2.2.1, toInt8_of_range _ (by omega) (by omega)]
            exact ⟨by simp, fun _ => hf.2.2.2.2.1⟩
          · have hf := finalizeAction_frame s
            rw [← h1, ha, hc, hf.1]
            refine ⟨by simp, fun h7 => ?_⟩
            rw [(hf.2.2.2.2.1 h7).1]
            exact hinv h7
          · rw [hr] at hre
            exact absurd hre (by decide)
          · rw [← h1, ha, hc]
            exact ⟨by simp, hinv⟩
        | tick f =>
          have hrun : s.TA1.running = true := by
            simp only [stepEv] at h1
            by_contra hn
            simp [hn] at h1
          simp only [stepEv, hrun, if_true] at h1
          have hf := A1CCR0ISR_frame f s s1 h1
          rw [hf.1, hf.2.1]
          exact ⟨by simp [isConfirm], hinv⟩
        | mux =>
          simp only [stepEv] at h1
          injection h1 with h1
          have hf := A0CCR0ISR_frame s
          rw [← h1, hf.2.2.2.1, hf.2.2.2.2.1]
          exact ⟨by simp [isConfirm], hinv⟩
      have hcp : (List.countP isConfirm (e :: es) : Int) =
          (if isConfirm e = true then 1 else 0) + List.countP isConfirm es := by
        rw [List.countP_cons]
        split <;> push_cast <;> ring
      have hi := ih s1 s' h hnr' (by rw [key.1]; split <;> omega)
        (by rw [key.1]; rw [hcp] at hhi; omega) key.2
      refine ⟨?_, hi.2⟩
      rw [hi.1, key.1, hcp]
      ring

theorem finished_persists (es : List Event) : ∀ (s s' : State), run es s = some s' →
    (∀ e ∈ es, isReset e = false) → 7 ≤ s.cnt → s.cnt + es.countP isConfirm ≤ 127 →
    s.TA1.running = false → s.digits 1 = 10 → s.digits 0 = 11 →
    s'.digits 1 = 10 ∧ s'.digits 0 = 11 ∧ s'.TA1.running = false ∧ countTicks es = 0 := by
  induction es with
  | nil =>
    intro s s' h _ _ _ hrun hd1 hd0
    simp only [run] at h
    injection h with h
    subst h
    exact ⟨hd1, hd0, hrun, rfl⟩
  | cons e es ih =>
    intro s s' h hnr hlo hhi hrun hd1 hd0
    simp only [run] at h
    cases h1 : stepEv e s with
    | none => simp [h1] at h
    | some s1 =>
      simp only [h1, Option.some_bind] at h
      have hnr' : ∀ e' ∈ es, isReset e' = false := fun e' he' => hnr e' (List.mem_cons_of_mem _ he')
      have hre := hnr e (List.mem_cons_self _ _)
      have hcp : (List.countP isConfirm (e :: es) : Int) =
          (if isConfirm e = true then 1 else 0) + List.countP isConfirm es := by
        rw [List.countP_cons]
        split <;> push_cast <;> ring
      rw [hcp] at hhi
      cases e with
      | fire p =>
        simp only [stepEv] at h1
        injection h1 with h1
        subst h1
        have hk : countTicks (Event.fire p :: es) = countTicks es := rfl
        rw [hk]
        rcases fire_cases p s with ⟨hc, ha⟩ | ⟨hc, _, ha⟩ | ⟨_, hr, _⟩ | ⟨hc, _, ha⟩
        · have hf := confirmAction_frame s
          rw [hc] at hhi
          simp only [if_true] at hhi
          have hcnt : (confirmAction s).cnt = s.cnt + 1 := by
            rw [hf.2.2.2.1, toInt8_of_range _ (by omega) (by omega)]
          rw [ha] at h
          exact ih _ s' h hnr' (by omega) (by omega) hf.2.2.2.2.1
            (by rw [hf.1]; exact hd1) (by rw [hf.1]; exact hd0)
        · have hf := finalizeAction_frame s
          rw [hc] at hhi
          rw [ha] at h
          have h7 := hf.2.2.2.2.1 hlo
          exact ih _ s' h hnr' (by rw [hf.1]; exact hlo) (by rw [hf.1]; simpa using hhi)
            (by rw [h7.1]; exact hrun) h7.2.1 h7.2.2
        · rw [hr] at hre
          exact absurd hre (by decide)
        · rw [hc] at hhi
          rw [ha] at h
          exact ih _ s' h hnr' hlo (by simpa using hhi) hrun hd1 hd0
      | tick f =>
        simp [stepEv, hrun] at h1
      | mux =>
        simp only [stepEv] at h1
        injection h1 with h1
        subst h1
        have hf := A0CCR0ISR_frame s
        have hk : countTicks (Event.mux :: es) = countTicks es := rfl
        rw [hk]
        have hc : isConfirm Event.mux = false := rfl
        rw [hc] at hhi
        exact ih _ s' h hnr' (by rw [hf.2.2.2.1]; exact hlo)
          (by rw [hf.2.2.2.1]; simpa using hhi) (by rw [hf.2.2.2.2.1]; exact hrun)
          (by rw [hf.2.1]; exact hd1) (by rw [hf.2.1]; exact hd0)

theorem confirm_cap_reached (es : List Event) (s s' : State) (hr : run es s = some s')
    (h0 : s.cnt = 0) (hnr : ∀ e ∈ es, isReset e = false) (h8 : es.countP isConfirm = 8) :
    s'.cnt = 8 ∧ s'.TA1.running = false ∧
    (finalizeAction s').digits 1 = 10 ∧ (finalizeAction s').digits 0 = 11 ∧
    (finalizeAction s').TA1.running = false ∧ (finalizeAction s').cnt = 8 := by
  have h := run_cnt_no_reset es s s' hr hnr (by omega) (by rw [h0, h8]; decide)
    (fun h7 => by omega)
  have hc : s'.cnt = 8 := by rw [h.1, h0, h8]; rfl
  have hf := finalizeAction_frame s'
  have h7 := hf.2.2.2.2.1 (by omega)
  exact ⟨hc, h.2 (by omega), h7.2.1, h7.2.2, by rw [h7.1]; exact h.2 (by omega),
    by rw [hf.1]; exact hc⟩

/-! ## End to end from start-up -/

theorem ticks_unvisited (fuels : List Nat) : ∀ (s : State),
    s.TA1.running = true → (∀ i, i < 32 → s.indicators i = 0) → (∀ f ∈ fuels, 1 ≤ f) →
    ∃ s', run (fuels.map Event.tick) s = some s' ∧
      s'.LSFR = lfsrStep^[fuels.length] s.LSFR ∧
      s'.indicators = s.indicators ∧ s'.TA1 = s.TA1 ∧ s'.cnt = s.cnt ∧ s'.tx = s.tx ∧
      (fuels ≠ [] → s'.LSFR_5b = s'.LSFR &&& 0x001F ∧
        s'.digits 1 = s'.LSFR_5b / 10 ∧ s'.digits 0 = s'.LSFR_5b % 10) := by
  induction fuels with
  | nil => intro s _ _ _; exact ⟨s, rfl, rfl, rfl, rfl, rfl, rfl, fun h => absurd rfl h⟩
  | cons f fs ih =>
    intro s hrun hempty hf
    obtain ⟨g, rfl⟩ : ∃ g, f = g + 1 := ⟨f - 1, by have := hf f (List.mem_cons_self _ _); omega⟩
    have hfree := hempty (lfsrStep s.LSFR &&& 0x001F) (land_31_lt _)
    have hstep : stepEv (Event.tick (g + 1)) s = some (display (lfsrStep s.LSFR &&& 0x001F)
        { s with LSFR := lfsrStep s.LSFR, LSFR_5b := lfsrStep s.LSFR &&& 0x001F }) := by
      simp only [stepEv, hrun, if_true]
      exact A1CCR0ISR_free g s hfree
    have hb := display_digits_bcd (lfsrStep s.LSFR &&& 0x001F)
      { s with LSFR := lfsrStep s.LSFR, LSFR_5b := lfsrStep s.LSFR &&& 0x001F }
      (by have := land_31_lt (lfsrStep s.LSFR); omega)
    obtain ⟨s', hr, hL, hI, hT, hc, htx, hd⟩ := ih (display (lfsrStep s.LSFR &&& 0x001F)
        { s with LSFR := lfsrStep s.LSFR, LSFR_5b := lfsrStep s.LSFR &&& 0x001F })
      hrun hempty (fun f hfm => hf f (List.mem_cons_of_mem _ hfm))
    refine ⟨s', ?_, ?_, hI, hT, hc, htx, ?_⟩
    · simp only [List.map_cons, run, hstep, Option.some_bind]
      exact hr
    · rw [hL, List.length_cons, Function.iterate_succ_apply]
      rfl
    · intro _
      by_cases hfs : fs = []
      · subst hfs
        simp only [List.map_nil, run] at hr
        injection hr with hr
        subst hr
        exact ⟨rfl, hb.1, hb.2⟩
      · exact hd hfs

/-- C8: from start-up, while no slot of `indicators` is set, the `k`-th generator tick of any
interrupt sequence leaves the LFSR at `lfsrStep^[k] 1`, its low five bits latched and their BCD
digits on display, and `k` ticks in a row (each allowed at least one pass of its loop) do
return; the first tick gives `0x8000` and candidate 0, the first eleven ticks all give
candidate 0, and the twelfth gives `0x8010` and candidate 16, shown as 1 and 6. -/
theorem end_to_end_ticks :
    (∀ (es : List Event) (fuel : Nat) (s' : State),
      run (es ++ [Event.tick fuel]) init = some s' →
      (∀ es1 s1, es1 <+: es → run es1 init = some s1 → ∀ i, i < 32 → s1.indicators i = 0) →
      s'.LSFR = lfsrStep^[countTicks es + 1] 1 ∧
      s'.LSFR_5b = lfsrStep^[countTicks es + 1] 1 &&& 0x001F ∧
      s'.digits 1 = s'.LSFR_5b / 10 ∧ s'.digits 0 = s'.LSFR_5b % 10) ∧
    (∀ fuels : List Nat, fuels ≠ [] → (∀ f ∈ fuels, 1 ≤ f) →
      ∃ s', run (fuels.map Event.tick) init = some s' ∧
        s'.LSFR = lfsrStep^[fuels.length] 1 ∧
        s'.LSFR_5b = lfsrStep^[fuels.length] 1 &&& 0x001F ∧
        s'.digits 1 = s'.LSFR_5b / 10 ∧ s'.digits 0 = s'.LSFR_5b % 10 ∧
        ∀ i, i < 32 → s'.indicators i = 0) ∧
    (∃ s', run [Event.tick 1] init = some s' ∧ s'.LSFR = 0x8000 ∧ s'.LSFR_5b = 0 ∧
        s'.digits 1 = 0 ∧ s'.digits 0 = 0) ∧
    (∀ k, 1 ≤ k → k ≤ 11 →
      ∃ s', run (List.replicate k (Event.tick 1)) init = some s' ∧ s'.LSFR_5b = 0) ∧
    (∃ s', run (List.replicate 12 (Event.tick 1)) init = some s' ∧ s'.LSFR = 0x8010 ∧
        s'.LSFR_5b = 16 ∧ s'.digits 1 = 1 ∧ s'.digits 0 = 6) := by
  have any : ∀ (es : List Event) (fuel : Nat) (s' : State),
      run (es ++ [Event.tick fuel]) init = some s' →
      (∀ es1 s1, es1 <+: es → run es1 init = some s1 → ∀ i, i < 32 → s1.indicators i = 0) →
      s'.LSFR = lfsrStep^[countTicks es + 1] 1 ∧
      s'.LSFR_5b = lfsrStep^[countTicks es + 1] 1 &&& 0x001F ∧
      s'.digits 1 = s'.LSFR_5b / 10 ∧ s'.digits 0 = s'.LSFR_5b % 10 := by
    intro es fuel s' h hemp
    rw [run_append] at h
    cases hs : run es init with
    | none => simp [hs] at h
    | some s0 =>
      simp only [hs, Option.some_bind, run] at h
      cases ht : stepEv (Event.tick fuel) s0 with
      | none => simp [ht] at h
      | some s1 =>
        simp only [ht, Option.some_bind] at h
        injection h with h
        subst h
        have h0 := hemp es s0 (List.prefix_refl es) hs
        have hL : s0.LSFR = lfsrStep^[countTicks es] 1 := run_LSFR_unvisited es init s0 hs hemp
        have e1 := stepEv_tick_some fuel s0 s1 ht (h0 _ (land_31_lt _))
        have hb := display_digits_bcd (lfsrStep s0.LSFR &&& 0x001F)
          { s0 with LSFR := lfsrStep s0.LSFR, LSFR_5b := lfsrStep s0.LSFR &&& 0x001F }
          (by have := land_31_lt (lfsrStep s0.LSFR); omega)
        rw [Function.iterate_succ_apply', ← hL, e1]
        exact ⟨rfl, rfl, hb.1, hb.2⟩
  have gen : ∀ fuels : List Nat, fuels ≠ [] → (∀ f ∈ fuels, 1 ≤ f) →
      ∃ s', run (fuels.map Event.tick) init = some s' ∧
        s'.LSFR = lfsrStep^[fuels.length] 1 ∧
        s'.LSFR_5b = lfsrStep^[fuels.length] 1 &&& 0x001F ∧
        s'.digits 1 = s'.LSFR_5b / 10 ∧ s'.digits 0 = s'.LSFR_5b % 10 ∧
        ∀ i, i < 32 → s'.indicators i = 0 := by
    intro fuels hne hf
    obtain ⟨s', hr, hL, hI, _, _, _, hd⟩ :=
      ticks_unvisited fuels init rfl (fun _ _ => rfl) hf
    have hL' : s'.LSFR = lfsrStep^[fuels.length] 1 := hL
    refine ⟨s', hr, hL', ?_, (hd hne).2.1, (hd hne).2.2, ?_⟩
    · rw [(hd hne).1, hL']
    · intro i _
      rw [hI]
      rfl
  have rep : ∀ k, 1 ≤ k → ∃ s', run (List.replicate k (Event.tick 1)) init = some s' ∧
      s'.LSFR = lfsrStep^[k] 1 ∧ s'.LSFR_5b = lfsrStep^[k] 1 &&& 0x001F ∧
      s'.digits 1 = s'.LSFR_5b / 10 ∧ s'.digits 0 = s'.LSFR_5b % 10 := by
    intro k hk
    obtain ⟨s', hr, hL, h5, h1, h0, _⟩ := gen (List.replicate k 1)
      (by intro h; have := congrArg List.length h; simp at this; omega)
      (by intro f hf; rw [List.eq_of_mem_replicate hf])
    rw [List.map_replicate] at hr
    rw [List.length_replicate] at hL h5
    exact ⟨s', hr, hL, h5, h1, h0⟩
  have low : ∀ k, 1 ≤ k → k ≤ 11 → lfsrStep^[k] 1 &&& 0x001F = 0 := by
    intro k h1 h11
    interval_cases k <;> decide
  refine ⟨any, gen, ?_, ?_, ?_⟩
  · obtain ⟨s', hr, hL, h5, h1, h0⟩ := rep 1 (by decide)
    have e : lfsrStep^[1] 1 = 0x8000 := by decide
    rw [e] at hL h5
    have h5' : s'.LSFR_5b = 0 := by rw [h5]; decide
    rw [h5'] at h1 h0
    exact ⟨s', hr, hL, h5', h1, h0⟩
  · intro k hk1 hk11
    obtain ⟨s', hr, _, h5, _, _⟩ := rep k hk1
    exact ⟨s', hr, by rw [h5, low k hk1 hk11]⟩
  · obtain ⟨s', hr, hL, h5, h1, h0⟩ := rep 12 (by decide)
    have e : lfsrStep^[12] 1 = 0x8010 := by decide
    rw [e] at hL h5
    have h5' : s'.LSFR_5b = 16 := by rw [h5]; decide
    rw [h5'] at h1 h0
    exact ⟨s', hr, hL, h5', h1, h0⟩

/-! ## The draw counter is an 8-bit signed integer -/

theorem confirmAction_in_range (s : State) (h1 : -128 ≤ s.cnt) (h2 : s.cnt < 127) :
    (confirmAction s).cnt = s.cnt + 1 ∧
    (confirmAction s).TB.running = false ∧ (confirmAction s).TA1.running = false ∧
    (s.cnt + 1 < 8 →
      (confirmAction s).indicators = arrSet s.indicators s.LSFR_5b 1 ∧
      (confirmAction s).tx = s.tx ++ [s.LSFR_5b % 256]) ∧
    (8 ≤ s.cnt + 1 →
      (confirmAction s).indicators = s.indicators ∧ (confirmAction s).tx = s.tx) := by
  have hc : toInt8 (s.cnt + 1) = s.cnt + 1 := toInt8_of_range _ (by omega) (by omega)
  have hf := confirmAction_frame s
  refine ⟨by rw [hf.2.2.2.1, hc], hf.2.2.2.2.2, hf.2.2.2.2.1, ?_, ?_⟩
  · intro h
    rw [confirmAction_indicators, confirmAction_tx, hc, if_pos h, if_pos h]
    exact ⟨rfl, rfl⟩
  · intro h
    have h' : ¬ s.cnt + 1 < 8 := by omega
    rw [confirmAction_indicators, confirmAction_tx, hc, if_neg h', if_neg h']
    exact ⟨rfl, rfl⟩

/-- C9: evaluation at the state reached by 127 confirm presses from start-up. There `cnt` is
127; the next confirm leaves `cnt = -128` instead of 128 and, as `-128 < 8`, stores another
byte to the UART. (While `cnt < 127` the confirm branch does add one to `cnt`, stops both
timers and records and emits the candidate exactly when the new `cnt` is below 8, see
`confirmAction_in_range`.) -/
theorem confirm_at_127_wraps :
    (run (List.replicate 127 (Event.fire pressConfirm)) init).map observe =
      some ⟨127, false, 0, 0, 0, [0, 0, 0, 0, 0, 0, 0]⟩ ∧
    (run (List.replicate 128 (Event.fire pressConfirm)) init).map observe =
      some ⟨-128, false, 0, 0, 0, [0, 0, 0, 0, 0, 0, 0, 0]⟩ := by
  constructor <;> decide!

/-- C5: evaluation of a reset-free run from start-up. After 8 confirms and a finalize, `cnt`
is 8, `digits` holds the finished codes and timer A1 is stopped; 120 further confirms wrap
`cnt` to `-128`, the next finalize then starts timer A1 and a generator tick replaces the
finished codes by the digits of candidate 16. (Up to the wrap the finished state does hold:
see `confirm_cap_reached` and `finished_persists`.) -/
theorem finished_state_unlocks :
    (run (List.replicate 8 (Event.fire pressConfirm) ++ [Event.fire pressFinalize]) init).map
        observe = some ⟨8, false, 10, 11, 0, [0, 0, 0, 0, 0, 0, 0, 10]⟩ ∧
    (run (List.replicate 8 (Event.fire pressConfirm) ++ [Event.fire pressFinalize] ++
        List.replicate 120 (Event.fire pressConfirm)) init).map observe =
      some ⟨-128, false, 10, 11, 0, [0, 0, 0, 0, 0, 0, 0, 10, 0]⟩ ∧
    (run (List.replicate 8 (Event.fire pressConfirm) ++ [Event.fire pressFinalize] ++
        List.replicate 120 (Event.fire pressConfirm) ++
        [Event.fire pressFinalize, Event.tick 12]) init).map observe =
      some ⟨-128, true, 1, 6, 16, [0, 0, 0, 0, 0, 0, 0, 10, 0]⟩ := by
  refine ⟨?_, ?_, ?_⟩ <;> decide!

/-! ## `display` on all of `uint16_t` -/

theorem nibbleStep_lt (nibble next : Nat) : (nibbleStep nibble next).1 < 16 := by
  unfold nibbleStep
  exact Nat.lt_of_le_of_lt Nat.and_le_right (by decide)

theorem displayInner_lt (k : Nat) : ∀ (tmp : Nat) (data : Nat → Nat) (next : Nat),
    (∀ i, data i < 16) → ∀ i, displayInner k tmp data next i < 16 := by
  induction k with
  | zero => intro tmp data next h i; exact h i
  | succ k ih =>
    intro tmp data next h i
    rw [displayInner]
    apply ih
    intro j
    unfold arrSet
    split
    · exact nibbleStep_lt _ _
    · exact h j

theorem displayOuter_lt (k : Nat) : ∀ (nr : Nat) (data : Nat → Nat),
    (∀ i, data i < 16) → ∀ i, displayOuter k nr data i < 16 := by
  induction k with
  | zero => intro nr data h i; exact h i
  | succ k ih =>
    intro nr data h i
    rw [displayOuter]
    exact ih _ _ (displayInner_lt 2 0 data _ h) i

theorem and_BIT7_mod (a : Nat) : a % 256 &&& BIT7 = a &&& BIT7 := by
  have h : a % 256 = a &&& 255 := (Nat.and_pow_two_sub_one_eq_mod a 8).symm
  rw [h, Nat.and_assoc]
  rfl

theorem displayOuter_congr (k : Nat) : ∀ (a b : Nat) (data : Nat → Nat),
    a % 256 = b % 256 → displayOuter k a data = displayOuter k b data := by
  induction k with
  | zero => intro a b data _; rfl
  | succ k ih =>
    intro a b data h
    rw [displayOuter, displayOuter]
    have h7 : a &&& BIT7 = b &&& BIT7 := by
      rw [← and_BIT7_mod a, ← and_BIT7_mod b, h]
    have hs : (a <<< 1) % 65536 % 256 = (b <<< 1) % 65536 % 256 := by
      rw [Nat.shiftLeft_eq, Nat.shiftLeft_eq]
      omega
    simp only [h7]
    exact ih _ _ _ hs

theorem displayData_mod (n : Nat) : displayData n = displayData (n % 256) := by
  unfold displayData
  exact displayOuter_congr 8 n (n % 256) _ (by omega)

theorem displayData_table_256 :
    ∀ m < 256, displayData m 0 = m % 10 ∧ displayData m 1 = m / 10 % 10 := by
  decide!

/-- C19: for every `n`, so for every 16-bit `n`, `display n` is `display (n % 256)`; it stores
the ones digit `(n % 256) % 10` in `digits[0]` and the tens digit `((n % 256) / 10) % 10` in
`digits[1]`, both at most 9, and after each of the eight passes of the outer loop both cells
of `data` are below 16. -/
theorem display_total (n : Nat) (s : State) :
    display n s = display (n % 256) s ∧
    (display n s).digits 0 = n % 256 % 10 ∧
    (display n s).digits 1 = n % 256 / 10 % 10 ∧
    (display n s).digits 0 ≤ 9 ∧ (display n s).digits 1 ≤ 9 ∧
    ∀ k, k ≤ 8 → ∀ i, displayOuter k n (fun _ => 0) i < 16 := by
  have hd := display_digits n s
  have ht := displayData_table_256 (n % 256) (Nat.mod_lt _ (by decide))
  rw [← displayData_mod] at ht
  refine ⟨?_, ?_, ?_, ?_, ?_, ?_⟩
  · unfold display
    rw [← displayData_mod]
  · rw [hd.1, ht.1]
  · rw [hd.2, ht.2]
  · rw [hd.1, ht.1]; omega
  · rw [hd.2, ht.2]; omega
  · intro k _ i
    exact displayOuter_lt k n _ (fun _ => by decide) i

theorem display_total_witness :
    (display 0xFFFF init).digits 0 = 0xFFFF % 256 % 10 ∧
    (display 0xFFFF init).digits 1 = 0xFFFF % 256 / 10 % 10 :=
  ⟨(display_total 0xFFFF init).2.1, (display_total 0xFFFF init).2.2.1⟩

/-! ## Who writes what -/

theorem resetAction_frame (s : State) :
    (resetAction s).digits = s.digits ∧ (resetAction s).LSFR = s.LSFR ∧
    (resetAction s).LSFR_5b = s.LSFR_5b ∧ (resetAction s).cnt = 0 ∧
    (resetAction s).TA1.running = true ∧
    (resetAction s).indicators = clearLoop 32 s.indicators :=
  ⟨rfl, rfl, rfl, rfl, rfl, rfl⟩

/-- C15: a generator tick that returns leaves `indicators` and `cnt` as they were; the handler
of timer B0 never writes `LSFR`, and in its confirm and reset branches it leaves `digits` as
it was; a multiplexer tick leaves `digits`, `indicators`, `cnt` and `LSFR` as they were. -/
theorem single_writer_frame :
    (∀ (fuel : Nat) (s s' : State), A1CCR0ISR fuel s = some s' →
      s'.indicators = s.indicators ∧ s'.cnt = s.cnt) ∧
    (∀ (P1IN : Nat) (s : State), (TBCCR0ISR P1IN s).LSFR = s.LSFR) ∧
    (∀ (P1IN : Nat) (s : State), P1IN &&& BIT5 = 0 → (TBCCR0ISR P1IN s).digits = s.digits) ∧
    (∀ (P1IN : Nat) (s : State), P1IN &&& BIT5 ≠ 0 → P1IN &&& BIT4 ≠ 0 → P1IN &&& BIT1 = 0 →
      (TBCCR0ISR P1IN s).digits = s.digits) ∧
    (∀ s : State, (A0CCR0ISR s).digits = s.digits ∧ (A0CCR0ISR s).indicators = s.indicators ∧
      (A0CCR0ISR s).cnt = s.cnt ∧ (A0CCR0ISR s).LSFR = s.LSFR) := by
  refine ⟨?_, TBCCR0ISR_LSFR, ?_, ?_, ?_⟩
  · intro fuel s s' h
    have k := A1CCR0ISR_frame fuel s s' h
    exact ⟨k.2.2.2, k.1⟩
  · intro P1IN s h
    rw [TBCCR0ISR_confirm P1IN s h]
    exact (confirmAction_frame s).1
  · intro P1IN s h5 h4 h1
    rw [TBCCR0ISR_reset P1IN s h5 h4 h1]
    rfl
  · intro s
    have k := A0CCR0ISR_frame s
    exact ⟨k.2.1, k.2.2.1, k.2.2.2.1, k.1⟩

theorem single_writer_frame_witness :
    (TBCCR0ISR pressConfirm visited0).digits = visited0.digits ∧
    (TBCCR0ISR pressReset visited0).digits = visited0.digits :=
  ⟨single_writer_frame.2.2.1 pressConfirm visited0 (by decide),
   single_writer_frame.2.2.2.1 pressReset visited0 (by decide) (by decide) (by decide)⟩

/-! ## The orbit of the seed is every nonzero 16-bit word -/

theorem lfsr_iterate_lt (k : Nat) : lfsrStep^[k] 1 < 65536 := by
  cases k with
  | zero => decide
  | succ m =>
    rw [Function.iterate_succ_apply']
    exact lfsrStep_lt _

theorem lfsr_iterate_inj_lt (i j : Nat) (hij : i < j) (hj : j < 65535) :
    lfsrStep^[i] 1 ≠ lfsrStep^[j] 1 := by
  intro heq
  have h := congrArg (lfsrStep^[65535 - j]) heq
  rw [← Function.iterate_add_apply, ← Function.iterate_add_apply,
    show 65535 - j + j = 65535 by omega, lfsr_at_65535] at h
  exact lfsr_iterate_ne_one (65535 - j + i) (by omega) (by omega) h

theorem lfsr_orbit (t : Nat) (h0 : t ≠ 0) (h16 : t < 65536) :
    ∃ k, k < 65535 ∧ lfsrStep^[k] 1 = t := by
  have hinj : Set.InjOn (fun k => lfsrStep^[k] 1) (Finset.range 65535 : Set Nat) := by
    intro i hi j hj hij
    simp only [Finset.coe_range, Set.mem_Iio] at hi hj
    by_contra hne
    rcases Nat.lt_or_gt_of_ne hne with hlt | hgt
    · exact lfsr_iterate_inj_lt i j hlt hj hij
    · exact lfsr_iterate_inj_lt j i hgt hi hij.symm
  have hsub : (Finset.range 65535).image (fun k => lfsrStep^[k] 1) ⊆ Finset.Ico 1 65536 := by
    intro x hx
    obtain ⟨k, _, rfl⟩ := Finset.mem_image.1 hx
    rw [Finset.mem_Ico]
    exact ⟨Nat.pos_of_ne_zero (lfsr_iterate_ne_zero k), lfsr_iterate_lt k⟩
  have hcard : (Finset.Ico 1 65536).card ≤
      ((Finset.range 65535).image (fun k => lfsrStep^[k] 1)).card := by
    rw [Finset.card_image_of_injOn hinj, Finset.card_range, Nat.card_Ico]
  have heq := Finset.eq_of_subset_of_card_le hsub hcard
  have ht : t ∈ Finset.Ico 1 65536 := Finset.mem_Ico.2 ⟨Nat.pos_of_ne_zero h0, h16⟩
  rw [← heq] at ht
  obtain ⟨k, hk, rfl⟩ := Finset.mem_image.1 ht
  exact ⟨k, Finset.mem_range.1 hk, rfl⟩

theorem lfsr_reach (s t : Nat) (hs0 : s ≠ 0) (hs16 : s < 65536) (ht0 : t ≠ 0)
    (ht16 : t < 65536) : ∃ k, 1 ≤ k ∧ k ≤ 65535 ∧ lfsrStep^[k] s = t := by
  obtain ⟨a, ha, rfl⟩ := lfsr_orbit s hs0 hs16
  obtain ⟨b, hb, rfl⟩ := lfsr_orbit t ht0 ht16
  by_cases hab : a < b
  · refine ⟨b - a, by omega, by omega, ?_⟩
    rw [← Function.iterate_add_apply, show b - a + a = b by omega]
  · refine ⟨65535 + b - a, by omega, by omega, ?_⟩
    rw [← Function.iterate_add_apply, show 65535 + b - a + a = b + 65535 by omega,
      Function.iterate_add_apply, lfsr_at_65535]

theorem lfsrStep_ne_zero (s : Nat) (h0 : s ≠ 0) (h16 : s < 65536) : lfsrStep s ≠ 0 := by
  obtain ⟨k, _, rfl⟩ := lfsr_orbit s h0 h16
  have h := lfsr_iterate_ne_zero (k + 1)
  rw [Function.iterate_succ_apply'] at h
  exact h

theorem lfsr_iterate_ne_zero_of (k : Nat) : ∀ s, s ≠ 0 → s < 65536 →
    lfsrStep^[k] s ≠ 0 ∧ lfsrStep^[k] s < 65536 := by
  induction k with
  | zero => intro s h0 h16; exact ⟨h0, h16⟩
  | succ k ih =>
    intro s h0 h16
    rw [Function.iterate_succ_apply]
    exact ih _ (lfsrStep_ne_zero s h0 h16) (lfsrStep_lt s)

/-! ## What a returning tick has done -/

theorem A1CCR0ISR_advances (fuel : Nat) : ∀ (s s' : State), A1CCR0ISR fuel s = some s' →
    ∃ k, 1 ≤ k ∧ k ≤ fuel ∧ s'.LSFR = lfsrStep^[k] s.LSFR ∧
      s.indicators (lfsrStep^[k] s.LSFR &&& 0x001F) = 0 ∧
      ∀ j, 1 ≤ j → j < k → s.indicators (lfsrStep^[j] s.LSFR &&& 0x001F) ≠ 0 := by
  induction fuel with
  | zero => intro s s' h; simp [A1CCR0ISR] at h
  | succ fuel ih =>
    intro s s' h
    simp only [A1CCR0ISR] at h
    split at h
    · rename_i hfree
      injection h with h
      subst h
      refine ⟨1, le_refl 1, by omega, rfl, hfree, ?_⟩
      intro j h1 h2
      omega
    · rename_i hbusy
      obtain ⟨k, hk1, hk2, hL, hfree, hprev⟩ := ih _ s' h
      refine ⟨k + 1, by omega, by omega, ?_, ?_, ?_⟩
      · rw [Function.iterate_succ_apply]; exact hL
      · rw [Function.iterate_succ_apply]; exact hfree
      · intro j hj1 hj2
        obtain ⟨i, rfl⟩ : ∃ i, j = i + 1 := ⟨j - 1, by omega⟩
        rw [Function.iterate_succ_apply]
        by_cases hi : i = 0
        · subst hi
          exact hbusy
        · exact hprev i (by omega) (by omega)

theorem A1CCR0ISR_returns (fuel : Nat) : ∀ (k : Nat) (s : State), 1 ≤ k → k ≤ fuel →
    s.indicators (lfsrStep^[k] s.LSFR &&& 0x001F) = 0 → ∃ s', A1CCR0ISR fuel s = some s' := by
  induction fuel with
  | zero => intro k s h1 h2; omega
  | succ fuel ih =>
    intro k s h1 h2 hfree
    simp only [A1CCR0ISR]
    split
    · exact ⟨_, rfl⟩
    · rename_i hbusy
      obtain ⟨i, rfl⟩ : ∃ i, k = i + 1 := ⟨k - 1, by omega⟩
      rw [Function.iterate_succ_apply] at hfree
      have hi : 1 ≤ i := by
        by_contra hn
        have : i = 0 := by omega
        subst this
        exact hbusy hfree
      exact ih i _ hi (by omega) hfree

theorem A1CCR0ISR_full (fuel : Nat) : ∀ (s : State), (∀ v, v < 32 → s.indicators v ≠ 0) →
    A1CCR0ISR fuel s = none := by
  induction fuel with
  | zero => intro s _; rfl
  | succ fuel ih =>
    intro s hfull
    simp only [A1CCR0ISR]
    rw [if_neg (hfull _ (land_31_lt _))]
    exact ih _ hfull

theorem add_32_land_31 : ∀ v, v < 32 → (v + 32) &&& 0x001F = v := by
  decide

theorem A1CCR0ISR_within_period (s : State) (h0 : s.LSFR ≠ 0) (h16 : s.LSFR < 65536)
    (v : Nat) (hv : v < 32) (hfree : s.indicators v = 0) :
    ∃ s', A1CCR0ISR 65535 s = some s' := by
  obtain ⟨k, hk1, hk2, hk⟩ := lfsr_reach s.LSFR (v + 32) h0 h16 (by omega) (by omega)
  apply A1CCR0ISR_returns 65535 k s hk1 hk2
  rw [hk, add_32_land_31 v hv]
  exact hfree

theorem exists_free_of_visitedCount (s : State) (h : visitedCount s ≤ 31) :
    ∃ v, v < 32 ∧ s.indicators v = 0 := by
  by_contra hn
  have hall : ∀ i ∈ List.range 32, (fun i => s.indicators i != 0) i = true := by
    intro i hi
    have hi' : i < 32 := List.mem_range.1 hi
    have : s.indicators i ≠ 0 := fun h0 => hn ⟨i, hi', h0⟩
    simpa using this
  have hc : visitedCount s = 32 := by
    unfold visitedCount
    rw [List.countP_eq_length.2 hall, List.length_range]
  omega

theorem visitedCount_of_free (s : State) (v : Nat) (hv : v < 32) (hfree : s.indicators v = 0) :
    visitedCount s ≤ 31 := by
  by_contra hn
  have hle : visitedCount s ≤ 32 := by
    unfold visitedCount
    exact (List.countP_le_length _).trans (by rw [List.length_range])
  have hc : visitedCount s = (List.range 32).length := by
    rw [List.length_range]; omega
  have hall := List.countP_eq_length.1 hc v (List.mem_range.2 hv)
  simp [hfree] at hall

/-- C18: from a nonzero 16-bit LFSR state the loop of the generator tick reaches its `break`
within some number of passes exactly when one of the 32 slots of `indicators` is `0`: with a
free slot it returns (within 65535 passes), with all 32 slots set it does not return within
any number of passes. -/
theorem tick_terminates_iff (s : State) (h0 : s.LSFR ≠ 0) (h16 : s.LSFR < 65536) :
    ((∃ fuel s', A1CCR0ISR fuel s = some s') ↔ ∃ v, v < 32 ∧ s.indicators v = 0) ∧
    ((∃ v, v < 32 ∧ s.indicators v = 0) → ∃ s', A1CCR0ISR 65535 s = some s') ∧
    ((∀ v, v < 32 → s.indicators v ≠ 0) → ∀ fuel, A1CCR0ISR fuel s = none) := by
  have hfree : (∃ v, v < 32 ∧ s.indicators v = 0) → ∃ s', A1CCR0ISR 65535 s = some s' := by
    rintro ⟨v, hv, hz⟩
    exact A1CCR0ISR_within_period s h0 h16 v hv hz
  have hfull : (∀ v, v < 32 → s.indicators v ≠ 0) → ∀ fuel, A1CCR0ISR fuel s = none :=
    fun h fuel => A1CCR0ISR_full fuel s h
  refine ⟨⟨?_, fun h => ⟨65535, hfree h⟩⟩, hfree, hfull⟩
  rintro ⟨fuel, s', hr⟩
  obtain ⟨k, _, _, _, hz, _⟩ := A1CCR0ISR_advances fuel s s' hr
  exact ⟨_, land_31_lt _, hz⟩

theorem tick_terminates_iff_witness :
    (∃ s', A1CCR0ISR 65535 allBut31 = some s') ∧
    ((∃ fuel s', A1CCR0ISR fuel allBut31 = some s') ↔
      ∃ v, v < 32 ∧ allBut31.indicators v = 0) :=
  ⟨(tick_terminates_iff allBut31 (by decide) (by decide)).2.1 ⟨31, by decide, rfl⟩,
   (tick_terminates_iff allBut31 (by decide) (by decide)).1⟩

/-- C13, counterexample: with `LSFR = 1` and all slots but slot 31 set (31 of 32), the loop of
the generator tick has not reached its `break` after 32 passes; it does after 110. -/
theorem retry_bound_32_fails :
    allBut31.LSFR = 1 ∧ visitedCount allBut31 = 31 ∧
    (A1CCR0ISR 32 allBut31).isSome = false ∧
    (A1CCR0ISR 110 allBut31).map State.LSFR_5b = some 31 ∧
    (A1CCR0ISR 109 allBut31).isSome = false := by
  refine ⟨rfl, ?_, ?_, ?_, ?_⟩ <;> decide!

/-! ## The retry bound

The low bit of the LFSR state is a bit stream, and the state after `q` updates is the 16 stream
bits from `q` on. The first 66016 bits of the stream are packed into one number, and two checks
on it are evaluated: at each of the 65535 positions of the period, every 5-bit value is the
candidate of one of the next 397 updates, and the candidates of the next 32 updates take at
least 8 values. -/

theorem lfsrStep_testBit_lt (s : Nat) (k : Nat) (hk : k < 15) :
    (lfsrStep s).testBit k = s.testBit (k + 1) := by
  unfold lfsrStep
  rw [show (65536 : Nat) = 2 ^ 16 from rfl, Nat.testBit_mod_two_pow]
  simp only [Nat.testBit_xor, Nat.testBit_shiftRight, Nat.testBit_shiftLeft]
  have h1 : decide (k < 16) = true := by simp; omega
  have h2 : decide (k ≥ 15) = false := by simp; omega
  simp [h1, h2, Nat.add_comm]

theorem lfsrStep_testBit_15 (s : Nat) (h : s < 65536) :
    (lfsrStep s).testBit 15 =
      xor (xor (xor (s.testBit 0) (s.testBit 2)) (s.testBit 3)) (s.testBit 5) := by
  unfold lfsrStep
  rw [show (65536 : Nat) = 2 ^ 16 from rfl, Nat.testBit_mod_two_pow]
  have h16 : s.testBit 16 = false := Nat.testBit_lt_two_pow (by simpa using h)
  simp only [Nat.testBit_xor, Nat.testBit_shiftRight, Nat.testBit_shiftLeft, Nat.testBit_and]
  rw [show 1 + 15 = 16 from rfl, show 15 - 15 = 0 from rfl, h16]
  simp only [Nat.add_zero]
  cases s.testBit 0 <;> cases s.testBit 2 <;> cases s.testBit 3 <;> cases s.testBit 5 <;> rfl

theorem iterate_testBit (k : Nat) : ∀ q, k ≤ 15 →
    (lfsrStep^[q] 1).testBit k = streamBit (q + k) := by
  induction k with
  | zero => intro q _; rfl
  | succ k ih =>
    intro q hk
    rw [← lfsrStep_testBit_lt _ k (by omega), ← Function.iterate_succ_apply' lfsrStep q 1,
      ih (q + 1) (by omega)]
    congr 1
    omega

theorem streamBit_rec (q : Nat) :
    streamBit (q + 16) =
      xor (xor (xor (streamBit q) (streamBit (q + 2))) (streamBit (q + 3))) (streamBit (q + 5)) := by
  rw [← iterate_testBit 15 (q + 1) (le_refl 15), Function.iterate_succ_apply',
    lfsrStep_testBit_15 _ (lfsr_iterate_lt q), iterate_testBit 0 q (by omega),
    iterate_testBit 2 q (by omega), iterate_testBit 3 q (by omega),
    iterate_testBit 5 q (by omega)]
  rfl

theorem streamBit_seed (q : Nat) (h : q < 16) : streamBit q = (1 : Nat).testBit q := by
  have h0 := iterate_testBit q 0 (by omega)
  rw [Nat.zero_add] at h0
  exact h0.symm

theorem forceNat_eq {α : Type} (n : Nat) (k : Nat → α) : forceNat n k = k n := by
  cases n <;> rfl

theorem streamExtend_eq (S m : Nat) :
    streamExtend S m =
      S ||| ((((S >>> (m - 16)) ^^^ ((S >>> (m - 16)) >>> 2) ^^^ ((S >>> (m - 16)) >>> 3) ^^^
        ((S >>> (m - 16)) >>> 5)) % 2 ^ 11) <<< m) :=
  rfl

theorem streamUpTo_seed : streamUpTo 1 16 := by
  intro q
  by_cases h : q < 16
  · rw [streamBit_seed q h]
    simp [h]
  · have : (1 : Nat).testBit q = false := Nat.testBit_lt_two_pow (by
      calc 1 < 2 ^ 16 := by decide
        _ ≤ 2 ^ q := Nat.pow_le_pow_right (by decide) (by omega))
    simp [h, this]

theorem streamUpTo_extend (S m : Nat) (h : streamUpTo S m) (hm : 16 ≤ m) :
    streamUpTo (streamExtend S m) (m + 11) := by
  have hS : ∀ q, S.testBit q = (decide (q < m) && streamBit q) := h
  intro q
  rw [streamExtend_eq]
  simp only [Nat.testBit_or, Nat.testBit_shiftLeft, Nat.testBit_mod_two_pow,
    Nat.testBit_shiftRight, Nat.testBit_xor]
  by_cases h1 : q < m
  · have h2 : ¬ q ≥ m := by omega
    have h3 : q < m + 11 := by omega
    simp [hS q, h1, h2, h3]
  · by_cases h3 : q < m + 11
    · have h2 : q ≥ m := by omega
      obtain ⟨r, rfl⟩ : ∃ r, q = r + 16 := ⟨q - 16, by omega⟩
      have e0 : m - 16 + (r + 16 - m) = r := by omega
      have c2 : m - 16 + (2 + (r + 16 - m)) = r + 2 := by omega
      have c3 : m - 16 + (3 + (r + 16 - m)) = r + 3 := by omega
      have c5 : m - 16 + (5 + (r + 16 - m)) = r + 5 := by omega
      have d0 : r < m := by omega
      have d2 : r + 2 < m := by omega
      have d3 : r + 3 < m := by omega
      have d5 : r + 5 < m := by omega
      have d11 : r + 16 - m < 11 := by omega
      rw [streamBit_rec r, c2, c3, c5, e0, hS (r + 16), hS r, hS (r + 2), hS (r + 3),
        hS (r + 5)]
      simp [h1, h2, h3, d0, d2, d3, d5, d11]
    · have h2 : q ≥ m := by omega
      have d11 : ¬ q - m < 11 := by omega
      simp [hS q, h1, h3, d11]

theorem streamUpTo_gen (n : Nat) : ∀ S m, streamUpTo S m → 16 ≤ m →
    streamUpTo (streamGen n S m) (m + 11 * n) := by
  induction n with
  | zero => intro S m h _; simpa using h
  | succ n ih =>
    intro S m h hm
    rw [streamGen, forceNat_eq, forceNat_eq]
    have k := ih _ _ (streamUpTo_extend S m h hm) (show 16 ≤ Nat.add m 11 from by
      show 16 ≤ m + 11
      omega)
    have e : Nat.add m 11 + 11 * n = m + 11 * (n + 1) := by
      show m + 11 + 11 * n = m + 11 * (n + 1)
      ring
    rw [e] at k
    exact k

theorem streamChecks_true : streamChecks = true := by decide!

theorem lfsrStream_streamUpTo : streamUpTo lfsrStream 66016 :=
  streamUpTo_gen 6000 1 16 streamUpTo_seed (le_refl 16)

theorem bitPlane_testBit (S ones v k q : Nat) (ho : ones.testBit q = true)
    (h : (bitPlane S ones v k).testBit q = true) : S.testBit (q + k) = v.testBit k := by
  unfold bitPlane at h
  cases hv : v.testBit k with
  | true =>
    rw [hv] at h
    have h1 : (S >>> k).testBit q = true := h
    rw [Nat.testBit_shiftRight] at h1
    rw [Nat.add_comm]
    exact h1
  | false =>
    rw [hv] at h
    have h1 : ((S >>> k) ^^^ ones).testBit q = true := h
    rw [Nat.testBit_xor, Nat.testBit_shiftRight, ho] at h1
    rw [Nat.add_comm]
    cases hb : S.testBit (k + q) with
    | true => rw [hb] at h1; exact absurd h1 (by decide)
    | false => rfl

theorem occMask_testBit (S ones v q : Nat) (ho : ones.testBit q = true)
    (h : (occMask S ones v).testBit q = true) (k : Nat) (hk : k < 5) :
    S.testBit (q + k) = v.testBit k := by
  have h1 : (bitPlane S ones v 0 &&& (bitPlane S ones v 1 &&& (bitPlane S ones v 2 &&&
      (bitPlane S ones v 3 &&& bitPlane S ones v 4)))).testBit q = true := h
  simp only [Nat.testBit_and, Bool.and_eq_true] at h1
  obtain ⟨p0, p1, p2, p3, p4⟩ := h1
  interval_cases k
  · exact bitPlane_testBit S ones v 0 q ho p0
  · exact bitPlane_testBit S ones v 1 q ho p1
  · exact bitPlane_testBit S ones v 2 q ho p2
  · exact bitPlane_testBit S ones v 3 q ho p3
  · exact bitPlane_testBit S ones v 4 q ho p4

theorem orShifts_testBit (M i : Nat) : ∀ d, (orShifts M d).testBit i = true →
    ∃ e, 1 ≤ e ∧ e ≤ d ∧ M.testBit (i + e) = true := by
  intro d
  induction d with
  | zero =>
    intro h
    have h1 : (0 : Nat).testBit i = true := h
    simp at h1
  | succ d ih =>
    intro h
    have h1 : (orShifts M d ||| (M >>> (d + 1))).testBit i = true := h
    rw [Nat.testBit_or, Bool.or_eq_true, Nat.testBit_shiftRight] at h1
    rcases h1 with h2 | h2
    · obtain ⟨e, he1, he2, he⟩ := ih h2
      exact ⟨e, he1, by omega, he⟩
    · refine ⟨d + 1, by omega, le_refl _, ?_⟩
      rw [Nat.add_comm]
      exact h2

theorem windowMask_testBit (S ones d v i : Nat) (h : (windowMask S ones d v).testBit i = true) :
    ∃ e, 1 ≤ e ∧ e ≤ d ∧ (occMask S ones v).testBit (i + e) = true := by
  unfold windowMask at h
  rw [forceNat_eq] at h
  exact orShifts_testBit _ i d h

theorem land_31_eq_of_testBit (x v : Nat) (hv : v < 32)
    (h : ∀ k, k < 5 → x.testBit k = v.testBit k) : x &&& 0x001F = v := by
  apply Nat.eq_of_testBit_eq
  intro k
  rw [Nat.testBit_and]
  by_cases hk : k < 5
  · rw [h k hk]
    have h31 : (0x001F : Nat).testBit k = true := by interval_cases k <;> rfl
    rw [h31, Bool.and_true]
  · have hp : 2 ^ 5 ≤ 2 ^ k := Nat.pow_le_pow_right (by decide) (by omega)
    have h1 : (0x001F : Nat).testBit k = false :=
      Nat.testBit_lt_two_pow (lt_of_lt_of_le (by decide) hp)
    have h2 : v.testBit k = false := Nat.testBit_lt_two_pow (lt_of_lt_of_le hv hp)
    rw [h1, h2, Bool.and_false]

theorem occMask_candidate (S ones W m v q : Nat) (hS : streamUpTo S m)
    (ho : ones = 2 ^ W - 1) (hW : W + 4 ≤ m) (hv : v < 32) (hq : q < W)
    (h : (occMask S ones v).testBit q = true) : lfsrStep^[q] 1 &&& 0x001F = v := by
  have hoq : ones.testBit q = true := by
    rw [ho, Nat.testBit_two_pow_sub_one]
    simpa using hq
  apply land_31_eq_of_testBit _ _ hv
  intro k hk
  rw [iterate_testBit k q (by omega), ← occMask_testBit S ones v q hoq h k hk, hS (q + k)]
  have : q + k < m := by omega
  simp [this]

theorem gapCheckAt_testBit (S ones full d : Nat) (h : gapCheckAt S ones full d = true)
    (v i : Nat) (hv : v < 32) (hi : full.testBit i = true) :
    (windowMask S ones d v).testBit i = true := by
  unfold gapCheckAt at h
  rw [List.all_eq_true] at h
  have h1 := Nat.eq_of_beq_eq_true (h v (List.mem_range.2 hv))
  have h2 : (windowMask S ones d v &&& full).testBit i = full.testBit i := by
    rw [show windowMask S ones d v &&& full = Nat.land (windowMask S ones d v) full from rfl, h1]
  rw [Nat.testBit_and, hi, Bool.and_true] at h2
  exact h2

theorem stepT_testBit (P i : Nat) : ∀ (ts : List Nat) (prev j0 c : Nat),
    (prev.testBit i = true → j0 ≤ c) →
    (∀ j, (ts.getD j 0).testBit i = true → j0 + j + 1 ≤ c) →
    ∀ j, ((stepT P prev ts).getD j 0).testBit i = true →
      j0 + j + 1 ≤ c + (if P.testBit i = true then 1 else 0) := by
  intro ts
  induction ts with
  | nil =>
    intro prev j0 c _ _ j h
    simp [stepT] at h
  | cons t ts ih =>
    intro prev j0 c hp ht j h
    rw [stepT, forceNat_eq] at h
    cases j with
    | zero =>
      have h1 : (t ||| (prev &&& P)).testBit i = true := h
      rw [Nat.testBit_or, Nat.testBit_and, Bool.or_eq_true, Bool.and_eq_true] at h1
      rcases h1 with h2 | ⟨h2, h3⟩
      · have h4 := ht 0 h2
        omega
      · have h4 := hp h2
        rw [if_pos h3]
        omega
    | succ j =>
      have h1 : ((stepT P t ts).getD j 0).testBit i = true := h
      have h2 := ih t (j0 + 1) c (fun h3 => ht 0 h3)
        (fun j h3 => by
          have h4 := ht (j + 1) h3
          omega) j h1
      omega

theorem thermoRun_testBit (S ones full d i : Nat) : ∀ n j,
    ((thermoRun S ones full d n).getD j 0).testBit i = true →
      j + 1 ≤ (List.range n).countP (fun v => (windowMask S ones d v).testBit i) := by
  intro n
  induction n with
  | zero =>
    intro j h
    rw [thermoRun, List.getD_eq_getElem?_getD, List.getElem?_getD_replicate_default_eq] at h
    simp at h
  | succ n ih =>
    intro j h
    rw [thermoRun, forceNat_eq] at h
    have h1 := stepT_testBit (windowMask S ones d n) i (thermoRun S ones full d n) full 0
      ((List.range n).countP (fun v => (windowMask S ones d v).testBit i))
      (fun _ => Nat.zero_le _)
      (fun j h2 => by
        have h3 := ih j h2
        omega) j h
    rw [List.range_succ, List.countP_append, List.countP_singleton]
    omega

theorem windowCheckAt_count (S ones full d : Nat) (h : windowCheckAt S ones full d = true)
    (i : Nat) (hi : full.testBit i = true) :
    8 ≤ (List.range 32).countP (fun v => (windowMask S ones d v).testBit i) := by
  unfold windowCheckAt at h
  have h1 := Nat.eq_of_beq_eq_true h
  have h2 : (List.getD (thermoRun S ones full d 32) 7 0 &&& full).testBit i = full.testBit i := by
    rw [show List.getD (thermoRun S ones full d 32) 7 0 &&& full =
      Nat.land (List.getD (thermoRun S ones full d 32) 7 0) full from rfl, h1]
  rw [Nat.testBit_and, hi, Bool.and_true] at h2
  exact thermoRun_testBit S ones full d i 32 7 h2

theorem exists_free_of_count (ind : Nat → Nat) (p : Nat → Bool)
    (h7 : (List.range 32).countP (fun i => ind i != 0) ≤ 7)
    (h8 : 8 ≤ (List.range 32).countP p) : ∃ v, v < 32 ∧ p v = true ∧ ind v = 0 := by
  by_contra hn
  have hle : (List.range 32).countP p ≤ (List.range 32).countP (fun i => ind i != 0) := by
    apply List.countP_mono_left
    intro v hv hp
    have h0 : ind v ≠ 0 := fun h0 => hn ⟨v, List.mem_range.1 hv, hp, h0⟩
    simpa using h0
  omega

theorem streamChecks_spec :
    gapCheckAt lfsrStream (2 ^ 66012 - 1) (2 ^ 65535 - 1) 397 = true ∧
    windowCheckAt lfsrStream (2 ^ 66012 - 1) (2 ^ 65535 - 1) 32 = true := by
  have h := streamChecks_true
  unfold streamChecks at h
  rw [forceNat_eq, forceNat_eq, forceNat_eq, Bool.and_eq_true] at h
  exact h

theorem full_testBit (i : Nat) (hi : i < 65535) : (2 ^ 65535 - 1).testBit i = true := by
  rw [Nat.testBit_two_pow_sub_one]
  simpa using hi

/-- Along the orbit of the LFSR from seed 1, every 5-bit value is the candidate of one of the
next 397 advances. -/
theorem candidate_within_397 (i v : Nat) (hi : i < 65535) (hv : v < 32) :
    ∃ e, 1 ≤ e ∧ e ≤ 397 ∧ lfsrStep^[i + e] 1 &&& 0x001F = v := by
  obtain ⟨e, he1, he2, he⟩ := windowMask_testBit _ _ _ _ _
    (gapCheckAt_testBit _ _ _ _ streamChecks_spec.1 v i hv (full_testBit i hi))
  exact ⟨e, he1, he2, occMask_candidate lfsrStream _ 66012 66016 v (i + e) lfsrStream_streamUpTo
    rfl (by omega) hv (by omega) he⟩

/-- Along the orbit of the LFSR from seed 1, the candidates of any 32 successive advances take
at least 8 values, so one of them is free when at most 7 slots are set. -/
theorem candidate_within_32 (i : Nat) (hi : i < 65535) (ind : Nat → Nat)
    (h7 : (List.range 32).countP (fun i => ind i != 0) ≤ 7) :
    ∃ e, 1 ≤ e ∧ e ≤ 32 ∧ ind (lfsrStep^[i + e] 1 &&& 0x001F) = 0 := by
  obtain ⟨v, hv, hp, h0⟩ := exists_free_of_count ind _ h7
    (windowCheckAt_count _ _ _ _ streamChecks_spec.2 i (full_testBit i hi))
  obtain ⟨e, he1, he2, he⟩ := windowMask_testBit _ _ _ _ _ hp
  refine ⟨e, he1, he2, ?_⟩
  rw [occMask_candidate lfsrStream _ 66012 66016 v (i + e) lfsrStream_streamUpTo
    rfl (by omega) hv (by omega) he]
  exact h0

theorem A1CCR0ISR_mono (fuel : Nat) : ∀ (s s' : State) (fuel' : Nat),
    A1CCR0ISR fuel s = some s' → fuel ≤ fuel' → A1CCR0ISR fuel' s = some s' := by
  induction fuel with
  | zero => intro s s' fuel' h; simp [A1CCR0ISR] at h
  | succ fuel ih =>
    intro s s' fuel' h hle
    obtain ⟨g, rfl⟩ : ∃ g, fuel' = g + 1 := ⟨fuel' - 1, by omega⟩
    simp only [A1CCR0ISR] at h ⊢
    split
    · rename_i hfree
      rw [if_pos hfree] at h
      exact h
    · rename_i hbusy
      rw [if_neg hbusy] at h
      exact ih _ s' g h (by omega)

theorem A1CCR0ISR_within (s : State) (h0 : s.LSFR ≠ 0) (h16 : s.LSFR < 65536)
    (h31 : visitedCount s ≤ 31) :
    ∃ s' k, A1CCR0ISR 397 s = some s' ∧ 1 ≤ k ∧ k ≤ 397 ∧
      (visitedCount s ≤ 7 → k ≤ 32 ∧ A1CCR0ISR 32 s = some s') ∧
      s'.LSFR = lfsrStep^[k] s.LSFR ∧ s'.LSFR_5b = s'.LSFR &&& 0x001F ∧
      s.indicators s'.LSFR_5b = 0 ∧
      ∀ j, 1 ≤ j → j < k → s.indicators (lfsrStep^[j] s.LSFR &&& 0x001F) ≠ 0 := by
  obtain ⟨i, hi, hs⟩ := lfsr_orbit s.LSFR h0 h16
  have hit : ∀ e, lfsrStep^[e] s.LSFR = lfsrStep^[i + e] 1 := by
    intro e
    rw [← hs, ← Function.iterate_add_apply, Nat.add_comm]
  obtain ⟨v, hv, hz⟩ := exists_free_of_visitedCount s h31
  obtain ⟨e, he1, he2, he⟩ := candidate_within_397 i v hi hv
  obtain ⟨s', hr⟩ := A1CCR0ISR_returns 397 e s he1 he2 (by rw [hit, he]; exact hz)
  obtain ⟨k, hk1, hk2, hL, _, hprev⟩ := A1CCR0ISR_advances 397 s s' hr
  have hsp := A1CCR0ISR_spec 397 s s' hr
  refine ⟨s', k, hr, hk1, hk2, ?_, hL, hsp.1, hsp.2.1, hprev⟩
  intro h7
  obtain ⟨e2, ha, hb, hc⟩ := candidate_within_32 i hi s.indicators h7
  obtain ⟨s2, hr2⟩ := A1CCR0ISR_returns 32 e2 s ha hb (by rw [hit]; exact hc)
  have hm := A1CCR0ISR_mono 32 s s2 397 hr2 (by decide)
  rw [hr] at hm
  injection hm with hm
  subst hm
  obtain ⟨k2, _, hk32, _, hz2, _⟩ := A1CCR0ISR_advances 32 s s' hr2
  refine ⟨?_, hr2⟩
  by_contra hgt
  by_cases hlt : k2 < k
  · exact hprev k2 (by omega) hlt hz2
  · omega

/-- C13, amended: from a nonzero 16-bit LFSR state and with at most 31 of the 32 slots of
`indicators` set, the generator tick returns after at most 397 passes of its loop (396
retries), its last advance being the first one whose low five bits are unvisited; with at most
7 slots set it returns after at most 32 passes (31 retries). -/
theorem retry_bound_397 (s : State) (h0 : s.LSFR ≠ 0) (h16 : s.LSFR < 65536)
    (h31 : visitedCount s ≤ 31) :
    ∃ s' k, A1CCR0ISR 397 s = some s' ∧ 1 ≤ k ∧ k ≤ 397 ∧
      (visitedCount s ≤ 7 → k ≤ 32 ∧ A1CCR0ISR 32 s = some s') ∧
      s'.LSFR = lfsrStep^[k] s.LSFR ∧ s'.LSFR_5b = s'.LSFR &&& 0x001F ∧
      s.indicators s'.LSFR_5b = 0 ∧
      ∀ j, 1 ≤ j → j < k → s.indicators (lfsrStep^[j] s.LSFR &&& 0x001F) ≠ 0 :=
  A1CCR0ISR_within s h0 h16 h31

theorem retry_bound_397_witness :
    (∃ s' k, A1CCR0ISR 397 farFrom31 = some s' ∧ 1 ≤ k ∧ k ≤ 397 ∧
      s'.LSFR = lfsrStep^[k] farFrom31.LSFR ∧ farFrom31.indicators s'.LSFR_5b = 0) ∧
    (∃ s' k, A1CCR0ISR 32 sevenDrawn = some s' ∧ 1 ≤ k ∧ k ≤ 32 ∧
      s'.LSFR = lfsrStep^[k] sevenDrawn.LSFR ∧ sevenDrawn.indicators s'.LSFR_5b = 0) := by
  constructor
  · obtain ⟨s', k, hr, h1, h2, _, hL, _, hz, _⟩ :=
      retry_bound_397 farFrom31 (by decide) (by decide) (by decide)
    exact ⟨s', k, hr, h1, h2, hL, hz⟩
  · obtain ⟨s', k, _, h1, _, h7, hL, _, hz, _⟩ :=
      retry_bound_397 sevenDrawn (by decide) (by decide) (by decide)
    exact ⟨s', k, (h7 (by decide)).2, h1, (h7 (by decide)).1, hL, hz⟩

/-- Both bounds are attained. With `LSFR = 0xDADF` and all slots but slot 31 set, the loop has
not reached its `break` after 396 passes and returns candidate 31 in the 397th; with
`LSFR = 0x777C` and 7 slots set, it has not after 31 passes and returns candidate 11 in the
32nd. -/
theorem retry_bounds_attained :
    (visitedCount farFrom31 = 31 ∧
      (A1CCR0ISR 396 farFrom31).isSome = false ∧
      (A1CCR0ISR 397 farFrom31).map State.LSFR_5b = some 31) ∧
    (visitedCount sevenDrawn = 7 ∧
      (A1CCR0ISR 31 sevenDrawn).isSome = false ∧
      (A1CCR0ISR 32 sevenDrawn).map State.LSFR_5b = some 11) := by
  refine ⟨⟨?_, ?_, ?_⟩, ?_, ?_, ?_⟩ <;> decide!

/-! ## The LFSR along a run -/

theorem run_LSFR_iterate (es : List Event) : ∀ (s s' : State), run es s = some s' →
    ∃ k, s'.LSFR = lfsrStep^[k] s.LSFR := by
  induction es with
  | nil =>
    intro s s' h
    simp only [run] at h
    injection h with h
    subst h
    exact ⟨0, rfl⟩
  | cons e es ih =>
    intro s s' h
    simp only [run] at h
    cases h1 : stepEv e s with
    | none => simp [h1] at h
    | some s1 =>
      simp only [h1, Option.some_bind] at h
      obtain ⟨k, hk⟩ := ih s1 s' h
      cases e with
      | fire p =>
        simp only [stepEv] at h1
        injection h1 with h1
        subst h1
        exact ⟨k, by rw [hk, TBCCR0ISR_LSFR]⟩
      | tick f =>
        simp only [stepEv] at h1
        split at h1
        · obtain ⟨j, _, _, hj, _, _⟩ := A1CCR0ISR_advances f s s1 h1
          exact ⟨k + j, by rw [hk, hj, Function.iterate_add_apply]⟩
        · simp at h1
      | mux =>
        simp only [stepEv] at h1
        injection h1 with h1
        subst h1
        exact ⟨k, by rw [hk, (A0CCR0ISR_frame s).1]⟩

/-- C14: the LFSR update maps every nonzero 16-bit state to a nonzero state; no number of
updates takes the seed 1 to 0, and in every state reached from start-up by any sequence of
interrupts the LFSR is a nonzero 16-bit word. -/
theorem lfsr_never_zero :
    (∀ s, s ≠ 0 → s < 65536 → lfsrStep s ≠ 0 ∧ lfsrStep s < 65536) ∧
    (∀ k, lfsrStep^[k] 1 ≠ 0) ∧
    (∀ (es : List Event) (s' : State), run es init = some s' →
      s'.LSFR ≠ 0 ∧ s'.LSFR < 65536) := by
  refine ⟨fun s h0 h16 => ⟨lfsrStep_ne_zero s h0 h16, lfsrStep_lt s⟩, lfsr_iterate_ne_zero, ?_⟩
  intro es s' h
  obtain ⟨k, hk⟩ := run_LSFR_iterate es init s' h
  rw [hk]
  exact ⟨lfsr_iterate_ne_zero k, lfsr_iterate_lt k⟩

theorem lfsr_never_zero_witness :
    lfsrStep 0x8000 ≠ 0 ∧ lfsrStep 0x8000 < 65536 :=
  lfsr_never_zero.1 0x8000 (by decide) (by decide)

/-! ## Reset and the LFSR -/

theorem reset_then_tick (s : State) (fuel : Nat) :
    ∃ s', stepEv (Event.tick (fuel + 1)) (resetAction s) = some s' ∧
      s'.LSFR = lfsrStep s.LSFR ∧ s'.LSFR_5b = lfsrStep s.LSFR &&& 0x001F := by
  have hfree : (resetAction s).indicators (lfsrStep (resetAction s).LSFR &&& 0x001F) = 0 := by
    have hlt := land_31_lt (lfsrStep s.LSFR)
    simp [resetAction, clearLoop_spec, hlt]
  refine ⟨display (lfsrStep (resetAction s).LSFR &&& 0x001F)
    { resetAction s with LSFR := lfsrStep (resetAction s).LSFR,
                         LSFR_5b := lfsrStep (resetAction s).LSFR &&& 0x001F }, ?_, rfl, rfl⟩
  have hrun : (resetAction s).TA1.running = true := rfl
  simp only [stepEv, hrun, if_true]
  exact A1CCR0ISR_free fuel (resetAction s) hfree

/-- C16, counterexample: after one generator tick from start-up the LFSR is `0x8000`; the
reset branch leaves it there instead of returning it to the seed 1, and the tick after the
reset gives `0x4000`, not the `0x8000` of the first tick after start-up. -/
theorem reset_does_not_reseed :
    (run [Event.tick 1] init).map State.LSFR = some 0x8000 ∧
    (run [Event.tick 1, Event.fire pressReset] init).map State.LSFR = some 0x8000 ∧
    (run [Event.tick 1, Event.fire pressReset, Event.tick 1] init).map State.LSFR =
      some 0x4000 := by
  refine ⟨?_, ?_, ?_⟩ <;> decide

/-- C16, amended: the reset branch leaves `LSFR` as it was, so the generator tick that follows
advances the LFSR once from where it stood and latches the low five bits of that state; this
is `0x8000` with candidate 0, as after start-up, when `LSFR` was 1 at the reset. -/
theorem reset_keeps_LFSR (P1IN : Nat) (s : State)
    (h5 : P1IN &&& BIT5 ≠ 0) (h4 : P1IN &&& BIT4 ≠ 0) (h1 : P1IN &&& BIT1 = 0) :
    (TBCCR0ISR P1IN s).LSFR = s.LSFR ∧
    (∀ fuel, ∃ s', stepEv (Event.tick (fuel + 1)) (TBCCR0ISR P1IN s) = some s' ∧
      s'.LSFR = lfsrStep s.LSFR ∧ s'.LSFR_5b = lfsrStep s.LSFR &&& 0x001F) ∧
    (s.LSFR = 1 → ∀ fuel, ∃ s', stepEv (Event.tick (fuel + 1)) (TBCCR0ISR P1IN s) = some s' ∧
      s'.LSFR = 0x8000 ∧ s'.LSFR_5b = 0) := by
  rw [TBCCR0ISR_reset P1IN s h5 h4 h1]
  refine ⟨rfl, reset_then_tick s, ?_⟩
  intro hs fuel
  obtain ⟨s', hr, hL, hc⟩ := reset_then_tick s fuel
  rw [hs] at hL hc
  exact ⟨s', hr, hL, hc⟩

theorem reset_keeps_LFSR_witness :
    (TBCCR0ISR pressReset { init with LSFR := 0x8000 }).LSFR = 0x8000 :=
  (reset_keeps_LFSR pressReset { init with LSFR := 0x8000 }
    (by decide) (by decide) (by decide)).1

/-! ## What `digits` can hold -/

theorem stepEv_digits (e : Event) (s s' : State) (h : stepEv e s = some s') :
    (s'.digits = s.digits) ∨
    (s'.digits 1 ≤ 3 ∧ s'.digits 0 ≤ 9 ∧ ∃ fuel, e = Event.tick fuel) ∨
    (s'.digits 1 = 10 ∧ s'.digits 0 = 11 ∧
      ∃ P1IN, e = Event.fire P1IN ∧ P1IN &&& BIT5 ≠ 0 ∧ P1IN &&& BIT4 = 0 ∧ 7 ≤ s.cnt) := by
  cases e with
  | fire p =>
    simp only [stepEv] at h
    injection h with h
    subst h
    by_cases h5 : p &&& BIT5 = 0
    · left
      rw [TBCCR0ISR_confirm p s h5]
      exact (confirmAction_frame s).1
    · by_cases h4 : p &&& BIT4 = 0
      · rw [TBCCR0ISR_finalize p s h5 h4]
        have hf := finalizeAction_frame s
        by_cases h7 : 7 ≤ s.cnt
        · right; right
          exact ⟨(hf.2.2.2.2.1 h7).2.1, (hf.2.2.2.2.1 h7).2.2, p, rfl, h5, h4, h7⟩
        · left
          exact (hf.2.2.2.2.2 (by omega)).2
      · by_cases h1 : p &&& BIT1 = 0
        · left
          rw [TBCCR0ISR_reset p s h5 h4 h1]
          rfl
        · left
          simp [TBCCR0ISR, h5, h4, h1]
  | tick f =>
    right; left
    simp only [stepEv] at h
    split at h
    · have k := A1CCR0ISR_spec f s s' h
      have hlt := land_31_lt s'.LSFR
      rw [← k.1] at hlt
      refine ⟨?_, ?_, f, rfl⟩
      · rw [k.2.2.2.1]; omega
      · rw [k.2.2.2.2]; omega
    · simp at h
  | mux =>
    left
    simp only [stepEv] at h
    injection h with h
    subst h
    exact (A0CCR0ISR_frame s).2.1

theorem run_digitsOk (es : List Event) : ∀ (s s' : State), digitsOk s → run es s = some s' →
    digitsOk s' := by
  induction es with
  | nil =>
    intro s s' hs h
    simp only [run] at h
    injection h with h
    subst h
    exact hs
  | cons e es ih =>
    intro s s' hs h
    simp only [run] at h
    cases h1 : stepEv e s with
    | none => simp [h1] at h
    | some s1 =>
      simp only [h1, Option.some_bind] at h
      apply ih s1 s' _ h
      rcases stepEv_digits e s s1 h1 with hd | ⟨hd1, hd0, _⟩ | ⟨hd1, hd0, _⟩
      · unfold digitsOk
        rw [hd]
        exact hs
      · exact Or.inl ⟨by omega, hd0⟩
      · exact Or.inr ⟨hd1, hd0⟩

/-- C17: in every state reached from start-up by any sequence of interrupts, `digits[1]` and
`digits[0]` are both decimal digits or they are the pair `10`, `11`; and an interrupt after
which `digits[1]` is `10` or `digits[0]` is `11` without having been so before is the handler
of timer B0 taking its finalize branch with `cnt >= 7`, which writes the whole pair. -/
theorem digits_invariant :
    (∀ (es : List Event) (s' : State), run es init = some s' →
      (s'.digits 1 ≤ 9 ∧ s'.digits 0 ≤ 9) ∨ (s'.digits 1 = 10 ∧ s'.digits 0 = 11)) ∧
    (∀ (e : Event) (s s' : State), stepEv e s = some s' →
      (s'.digits 1 = 10 ∧ s.digits 1 ≠ 10) ∨ (s'.digits 0 = 11 ∧ s.digits 0 ≠ 11) →
      s'.digits 1 = 10 ∧ s'.digits 0 = 11 ∧
      ∃ P1IN, e = Event.fire P1IN ∧ P1IN &&& BIT5 ≠ 0 ∧ P1IN &&& BIT4 = 0 ∧ 7 ≤ s.cnt) := by
  constructor
  · intro es s' h
    exact run_digitsOk es init s' (Or.inl ⟨by decide, by decide⟩) h
  · intro e s s' h hnew
    rcases stepEv_digits e s s' h with hd | ⟨hd1, hd0, _⟩ | hfin
    · rw [hd] at hnew
      rcases hnew with ⟨a, b⟩ | ⟨a, b⟩ <;> exact absurd a b
    · rcases hnew with ⟨a, _⟩ | ⟨a, _⟩ <;> omega
    · exact hfin

theorem digits_invariant_witness :
    ∃ s', run [Event.tick 1] init = some s' ∧
      ((s'.digits 1 ≤ 9 ∧ s'.digits 0 ≤ 9) ∨ (s'.digits 1 = 10 ∧ s'.digits 0 = 11)) :=
  ⟨_, rfl, digits_invariant.1 [Event.tick 1] _ rfl⟩

/-! ## The draw counter counts confirms -/

theorem countP_update_le (p q : Nat → Bool) (i : Nat) (h : ∀ j, j ≠ i → q j = p j) :
    ∀ l : List Nat, l.countP q ≤ l.countP p + l.count i := by
  intro l
  induction l with
  | nil => simp
  | cons a l ih =>
    by_cases ha : a = i
    · subst ha
      rw [List.count_cons_self]
      have h1 : List.countP q (a :: l) ≤ List.countP q l + 1 := by
        rw [List.countP_cons]; split <;> omega
      have h2 : List.countP p l ≤ List.countP p (a :: l) := by
        rw [List.countP_cons]; split <;> omega
      omega
    · rw [List.countP_cons, List.countP_cons, h a ha, List.count_cons_of_ne (Ne.symm ha)]
      split <;> omega

theorem visitedCount_arrSet_le (s : State) (i : Nat) :
    visitedCount { s with indicators := arrSet s.indicators i 1 } ≤ visitedCount s + 1 := by
  unfold visitedCount
  have h := countP_update_le (fun j => s.indicators j != 0)
    (fun j => arrSet s.indicators i 1 j != 0) i
    (by intro j hj; simp [arrSet, hj]) (List.range 32)
  have hc : (List.range 32).count i ≤ 1 :=
    List.nodup_iff_count_le_one.1 (List.nodup_range 32) i
  exact h.trans (by omega)

theorem visitedCount_eq (s t : State) (h : t.indicators = s.indicators) :
    visitedCount t = visitedCount s := by
  unfold visitedCount
  rw [h]

theorem visitedCount_reset (s : State) : visitedCount (resetAction s) = 0 := by
  unfold visitedCount
  rw [List.countP_eq_zero]
  intro i hi
  have hi' : i < 32 := List.mem_range.1 hi
  simp [resetAction, clearLoop_spec, hi']

theorem run_counts (es : List Event) : ∀ (n : Nat) (s s' : State), run es s = some s' →
    s.cnt = n → visitedCount s ≤ min n 7 → confirmsBelow 127 n es = true →
    s'.cnt = confirmsAfter n es ∧ confirmsAfter n es ≤ 127 ∧
    visitedCount s' ≤ min (confirmsAfter n es) 7 := by
  induction es with
  | nil =>
    intro n s s' h hc hv hb
    simp only [run] at h
    injection h with h
    subst h
    simp only [confirmsBelow, decide_eq_true_eq] at hb
    exact ⟨hc, hb, hv⟩
  | cons e es ih =>
    intro n s s' h hc hv hb
    simp only [run] at h
    simp only [confirmsBelow, Bool.and_eq_true, decide_eq_true_eq] at hb
    have hb' : confirmsBelow 127 (confirmsNext n e) es = true := hb.2
    have hnext : confirmsNext n e ≤ 127 := by
      cases es with
      | nil => simpa [confirmsBelow] using hb'
      | cons e' es' =>
        simp only [confirmsBelow, Bool.and_eq_true, decide_eq_true_eq] at hb'
        exact hb'.1
    cases h1 : stepEv e s with
    | none => simp [h1] at h
    | some s1 =>
      simp only [h1, Option.some_bind] at h
      have key : s1.cnt = confirmsNext n e ∧ visitedCount s1 ≤ min (confirmsNext n e) 7 := by
        cases e with
        | fire p =>
          simp only [stepEv] at h1
          injection h1 with h1
          subst h1
          rcases fire_cases p s with ⟨hcf, ha⟩ | ⟨hcf, hrs, ha⟩ | ⟨hcf, hrs, ha⟩ | ⟨hcf, hrs, ha⟩
          · have hrs : isReset (Event.fire p) = false := by
              simp only [isConfirm, beq_iff_eq] at hcf
              simp [isReset, hcf]
            have hn : confirmsNext n (Event.fire p) = n + 1 := by
              simp [confirmsNext, hrs, hcf]
            rw [hn] at hnext ⊢
            have hf := confirmAction_frame s
            have hcnt : (confirmAction s).cnt = ((n + 1 : Nat) : Int) := by
              rw [hf.2.2.2.1, hc, toInt8_of_range _ (by omega) (by omega)]
              push_cast
              rfl
            rw [ha]
            refine ⟨hcnt, ?_⟩
            by_cases hrec : toInt8 (s.cnt + 1) < 8
            · have hle := visitedCount_arrSet_le s s.LSFR_5b
              have hvc : visitedCount (confirmAction s) =
                  visitedCount { s with indicators := arrSet s.indicators s.LSFR_5b 1 } := by
                apply visitedCount_eq
                rw [confirmAction_indicators, if_pos hrec]
              have hn8 : n + 1 < 8 := by
                rw [hc, toInt8_of_range _ (by omega) (by omega)] at hrec
                omega
              rw [hvc]
              omega
            · have hvc : visitedCount (confirmAction s) = visitedCount s := by
                apply visitedCount_eq
                rw [confirmAction_indicators, if_neg hrec]
              rw [hvc]
              omega
          · have hn : confirmsNext n (Event.fire p) = n := by
              simp [confirmsNext, hrs, hcf]
            have hf := finalizeAction_frame s
            rw [hn, ha, hf.1, visitedCount_eq s _ hf.2.1]
            exact ⟨hc, hv⟩
          · have hn : confirmsNext n (Event.fire p) = 0 := by
              simp [confirmsNext, hrs]
            rw [hn, ha, visitedCount_reset]
            exact ⟨rfl, by omega⟩
          · have hn : confirmsNext n (Event.fire p) = n := by
              simp [confirmsNext, hrs, hcf]
            rw [hn, ha]
            exact ⟨hc, hv⟩
        | tick f =>
          have hn : confirmsNext n (Event.tick f) = n := by
            simp [confirmsNext, isReset, isConfirm]
          simp only [stepEv] at h1
          split at h1
          · have hf := A1CCR0ISR_frame f s s1 h1
            rw [hn, hf.1, visitedCount_eq s s1 hf.2.2.2]
            exact ⟨hc, hv⟩
          · simp at h1
        | mux =>
          have hn : confirmsNext n Event.mux = n := by
            simp [confirmsNext, isReset, isConfirm]
          simp only [stepEv] at h1
          injection h1 with h1
          subst h1
          have hf := A0CCR0ISR_frame s
          rw [hn, hf.2.2.2.1, visitedCount_eq s _ hf.2.2.1]
          exact ⟨hc, hv⟩
      exact ih (confirmsNext n e) s1 s' h key.1 key.2 hb'

/-- C11, counterexample: nine confirm presses from start-up leave `cnt = 9`. -/
theorem cnt_exceeds_8 :
    ∃ s, run (List.replicate 9 (Event.fire pressConfirm)) init = some s ∧ s.cnt = 9 ∧
      ¬ (0 ≤ s.cnt ∧ s.cnt ≤ 8) := by
  have h : (run (List.replicate 9 (Event.fire pressConfirm)) init).map State.cnt = some 9 := by
    decide!
  cases hr : run (List.replicate 9 (Event.fire pressConfirm)) init with
  | none =>
    rw [hr] at h
    exact absurd h (by simp)
  | some s =>
    rw [hr] at h
    simp only [Option.map_some', Option.some.injEq] at h
    exact ⟨s, rfl, h, by omega⟩

/-- C11, amended: in every state reached from start-up by a sequence of interrupts during
which never more than 127 confirm branches are taken without a reset branch in between, `cnt`
is the number of confirm branches taken since the last reset branch, so `0 <= cnt <= 127`. -/
theorem cnt_counts_confirms (es : List Event) (s' : State) (hr : run es init = some s')
    (hb : confirmsBelow 127 0 es = true) :
    s'.cnt = confirmsAfter 0 es ∧ 0 ≤ s'.cnt ∧ s'.cnt ≤ 127 := by
  have h := run_counts es 0 init s' hr rfl (by decide) hb
  refine ⟨h.1, ?_, ?_⟩
  · rw [h.1]; omega
  · rw [h.1]; omega

theorem cnt_counts_confirms_witness :
    ∃ s, run (List.replicate 9 (Event.fire pressConfirm)) init = some s ∧
      s.cnt = confirmsAfter 0 (List.replicate 9 (Event.fire pressConfirm)) ∧
      0 ≤ s.cnt ∧ s.cnt ≤ 127 :=
  ⟨_, rfl, cnt_counts_confirms (List.replicate 9 (Event.fire pressConfirm)) _ rfl (by decide)⟩

/-! ## Filling `indicators` -/

theorem all_set_of_visitedCount (s : State) (h : visitedCount s = 32) :
    ∀ v, v < 32 → s.indicators v ≠ 0 := by
  intro v hv
  have hc : visitedCount s = (List.range 32).length := by
    rw [List.length_range]; exact h
  have hall := List.countP_eq_length.1 hc v (List.mem_range.2 hv)
  simpa using hall

theorem visited_at_most_7 (es : List Event) (s' : State) (hr : run es init = some s')
    (hb : confirmsBelow 127 0 es = true) : visitedCount s' ≤ 7 := by
  have h := run_counts es 0 init s' hr rfl (by decide) hb
  omega

/-- C12: evaluation of the run `fillAll` from start-up. After it `cnt` is `-97` and all 32
slots of `indicators` are set; one more finalize press starts timer A1, and the generator tick
that follows does not return within any number of passes of its loop. (While `cnt` has not
wrapped at most 7 slots are set, see `visited_at_most_7`.) -/
theorem visited_set_fills :
    (run fillAll init).map State.cnt = some (-97) ∧
    (run fillAll init).map visitedCount = some 32 ∧
    ∃ s, run (fillAll ++ [Event.fire pressFinalize]) init = some s ∧
      s.TA1.running = true ∧ (∀ v, v < 32 → s.indicators v ≠ 0) ∧
      ∀ fuel, A1CCR0ISR fuel s = none := by
  refine ⟨by decide!, by decide!, ?_⟩
  have h : (run (fillAll ++ [Event.fire pressFinalize]) init).map
      (fun s => (s.TA1.running, visitedCount s)) = some (true, 32) := by
    decide!
  cases hr : run (fillAll ++ [Event.fire pressFinalize]) init with
  | none =>
    rw [hr] at h
    exact absurd h (by simp)
  | some s =>
    rw [hr] at h
    simp only [Option.map_some', Option.some.injEq, Prod.mk.injEq] at h
    have hall := all_set_of_visitedCount s h.2
    exact ⟨s, rfl, h.1, hall, fun fuel => A1CCR0ISR_full fuel s hall⟩

/-! ## Drawn numbers are not repeated -/

theorem sentBy_self (s : State) (t : State) (h : t.tx = s.tx) : sentBy s t = [] := by
  unfold sentBy
  rw [h, List.drop_length]

theorem sentBy_append (s : State) (t : State) (l : List Nat) (h : t.tx = s.tx ++ l) :
    sentBy s t = l := by
  unfold sentBy
  rw [h, List.drop_left]

theorem runDraws_fst (es : List Event) : ∀ (s : State) (d : Draws) (s' : State) (d' : Draws),
    runDraws es s d = some (s', d') → run es s = some s' := by
  induction es with
  | nil =>
    intro s d s' d' h
    simp only [runDraws, Option.some.injEq, Prod.mk.injEq] at h
    rw [run, h.1]
  | cons e es ih =>
    intro s d s' d' h
    simp only [runDraws] at h
    simp only [run]
    cases h1 : stepEv e s with
    | none => simp [h1] at h
    | some s1 =>
      simp only [h1] at h
      simpa using ih s1 _ s' d' h

theorem drawsStep_separated (e : Event) (s s' : State) (d : Draws)
    (h : (drawsStep e s s' d).separated = true) : d.separated = true := by
  unfold drawsStep at h
  split at h
  · exact h
  · exact h
  · split at h
    · exact h
    · split at h
      · split at h
        · exact h
        · simp only [Bool.and_eq_true] at h
          exact h.1
      · exact h

theorem runDraws_separated (es : List Event) : ∀ (s : State) (d : Draws) (s' : State)
    (d' : Draws), runDraws es s d = some (s', d') → d'.separated = true →
    d.separated = true := by
  induction es with
  | nil =>
    intro s d s' d' h hs
    simp only [runDraws, Option.some.injEq, Prod.mk.injEq] at h
    rw [h.2]; exact hs
  | cons e es ih =>
    intro s d s' d' h hs
    simp only [runDraws] at h
    cases h1 : stepEv e s with
    | none => simp [h1] at h
    | some s1 =>
      simp only [h1] at h
      exact drawsStep_separated e s s1 d (ih s1 _ s' d' h hs)

theorem drawsStep_inv (e : Event) (s s1 : State) (d : Draws) (h1 : stepEv e s = some s1)
    (h5 : s.LSFR_5b < 32)
    (hmark : ∀ v ∈ d.drawn, v < 32 ∧ s.indicators v ≠ 0) (hnd : d.drawn.Nodup)
    (hfresh : d.ticked = true → s.indicators s.LSFR_5b = 0)
    (hsep : (drawsStep e s s1 d).separated = true) :
    s1.LSFR_5b < 32 ∧
    (∀ v ∈ (drawsStep e s s1 d).drawn, v < 32 ∧ s1.indicators v ≠ 0) ∧
    (drawsStep e s s1 d).drawn.Nodup ∧
    ((drawsStep e s s1 d).ticked = true → s1.indicators s1.LSFR_5b = 0) := by
  cases e with
  | tick f =>
    simp only [stepEv] at h1
    split at h1
    · have k := A1CCR0ISR_spec f s s1 h1
      have hlt := land_31_lt s1.LSFR
      rw [← k.1] at hlt
      refine ⟨hlt, ?_, hnd, ?_⟩
      · intro v hv
        rw [k.2.2.1]
        exact hmark v hv
      · intro _
        rw [k.2.2.1]
        exact k.2.1
    · simp at h1
  | mux =>
    simp only [stepEv] at h1
    injection h1 with h1
    subst h1
    have hf := A0CCR0ISR_frame s
    refine ⟨by rw [hf.2.2.2.2.2]; exact h5, ?_, hnd, ?_⟩
    · intro v hv
      rw [hf.2.2.1]
      exact hmark v hv
    · intro ht
      rw [hf.2.2.1, hf.2.2.2.2.2]
      exact hfresh ht
  | fire p =>
    simp only [stepEv] at h1
    injection h1 with h1
    subst h1
    rcases fire_cases p s with ⟨hcf, ha⟩ | ⟨hcf, hrs, ha⟩ | ⟨hcf, hrs, ha⟩ | ⟨hcf, hrs, ha⟩
    · have hrs : isReset (Event.fire p) = false := by
        simp only [isConfirm, beq_iff_eq] at hcf
        simp [isReset, hcf]
      have hf := confirmAction_frame s
      rw [ha] at hsep ⊢
      by_cases hrec : toInt8 (s.cnt + 1) < 8
      · have htx : (confirmAction s).tx = s.tx ++ [s.LSFR_5b] := by
          rw [confirmAction_tx, if_pos hrec, Nat.mod_eq_of_lt (by omega)]
        have hsent := sentBy_append s (confirmAction s) _ htx
        have hind : (confirmAction s).indicators = arrSet s.indicators s.LSFR_5b 1 := by
          rw [confirmAction_indicators, if_pos hrec]
        have hd : drawsStep (Event.fire p) s (confirmAction s) d =
            { drawn := d.drawn ++ [s.LSFR_5b], ticked := false,
              separated := d.separated && d.ticked } := by
          simp [drawsStep, hrs, hcf, hsent]
        rw [hd] at hsep ⊢
        simp only [Bool.and_eq_true] at hsep
        have hfree := hfresh hsep.2
        have hnotin : s.LSFR_5b ∉ d.drawn := fun hin => (hmark _ hin).2 hfree
        refine ⟨by rw [hf.2.2.1]; exact h5, ?_, ?_, ?_⟩
        · intro v hv
          rw [hind]
          rcases List.mem_append.1 hv with hv | hv
          · refine ⟨(hmark v hv).1, ?_⟩
            unfold arrSet
            split
            · decide
            · exact (hmark v hv).2
          · have hv' : v = s.LSFR_5b := by simpa using hv
            subst hv'
            exact ⟨h5, by simp [arrSet]⟩
        · exact List.Nodup.append hnd (List.nodup_singleton _)
            (by
              intro a ha1 ha2
              have : a = s.LSFR_5b := by simpa using ha2
              subst this
              exact hnotin ha1)
        · intro ht
          exact absurd ht (by simp)
      · have htx : (confirmAction s).tx = s.tx := by
          rw [confirmAction_tx, if_neg hrec]
        have hsent := sentBy_self s (confirmAction s) htx
        have hind : (confirmAction s).indicators = s.indicators := by
          rw [confirmAction_indicators, if_neg hrec]
        have hd : drawsStep (Event.fire p) s (confirmAction s) d = d := by
          simp [drawsStep, hrs, hcf, hsent]
        rw [hd]
        refine ⟨by rw [hf.2.2.1]; exact h5, ?_, hnd, ?_⟩
        · intro v hv
          rw [hind]
          exact hmark v hv
        · intro ht
          rw [hind, hf.2.2.1]
          exact hfresh ht
    · have hf := finalizeAction_frame s
      have hd : drawsStep (Event.fire p) s (TBCCR0ISR p s) d = d := by
        simp [drawsStep, hrs, hcf]
      rw [hd, ha]
      refine ⟨by rw [hf.2.2.2.1]; exact h5, ?_, hnd, ?_⟩
      · intro v hv
        rw [hf.2.1]
        exact hmark v hv
      · intro ht
        rw [hf.2.1, hf.2.2.2.1]
        exact hfresh ht
    · have hd : drawsStep (Event.fire p) s (TBCCR0ISR p s) d = { d with drawn := [] } := by
        simp [drawsStep, hrs]
      rw [hd, ha]
      refine ⟨h5, ?_, List.nodup_nil, ?_⟩
      · intro v hv
        simp at hv
      · intro _
        simp [resetAction, clearLoop_spec, h5]
    · have hd : drawsStep (Event.fire p) s (TBCCR0ISR p s) d = d := by
        simp [drawsStep, hrs, hcf]
      rw [hd, ha]
      exact ⟨h5, hmark, hnd, hfresh⟩

theorem runDraws_inv (es : List Event) : ∀ (s : State) (d : Draws) (s' : State) (d' : Draws),
    runDraws es s d = some (s', d') → d'.separated = true → s.LSFR_5b < 32 →
    (∀ v ∈ d.drawn, v < 32 ∧ s.indicators v ≠ 0) → d.drawn.Nodup →
    (d.ticked = true → s.indicators s.LSFR_5b = 0) →
    d'.drawn.Nodup ∧ ∀ v ∈ d'.drawn, v < 32 ∧ s'.indicators v ≠ 0 := by
  induction es with
  | nil =>
    intro s d s' d' h _ _ hmark hnd _
    simp only [runDraws, Option.some.injEq, Prod.mk.injEq] at h
    rw [← h.1, ← h.2]
    exact ⟨hnd, hmark⟩
  | cons e es ih =>
    intro s d s' d' h hs h5 hmark hnd hfresh
    simp only [runDraws] at h
    cases h1 : stepEv e s with
    | none => simp [h1] at h
    | some s1 =>
      simp only [h1] at h
      have hsep1 := runDraws_separated es s1 _ s' d' h hs
      have k := drawsStep_inv e s s1 d h1 h5 hmark hnd hfresh hsep1
      exact ih s1 _ s' d' h hs k.1 k.2.1 k.2.2.1 k.2.2.2

theorem confirm_sent_marked (P1IN : Nat) (t : State) (h : P1IN &&& BIT5 = 0)
    (h5 : t.LSFR_5b < 32) :
    ∀ v ∈ sentBy t (TBCCR0ISR P1IN t), v = t.LSFR_5b ∧ (TBCCR0ISR P1IN t).indicators v ≠ 0 := by
  rw [TBCCR0ISR_confirm P1IN t h]
  intro v hv
  by_cases hrec : toInt8 (t.cnt + 1) < 8
  · have htx : (confirmAction t).tx = t.tx ++ [t.LSFR_5b] := by
      rw [confirmAction_tx, if_pos hrec, Nat.mod_eq_of_lt (by omega)]
    rw [sentBy_append t (confirmAction t) _ htx] at hv
    have hv' : v = t.LSFR_5b := by simpa using hv
    subst hv'
    refine ⟨rfl, ?_⟩
    rw [confirmAction_indicators, if_pos hrec]
    simp [arrSet]
  · have htx : (confirmAction t).tx = t.tx := by
      rw [confirmAction_tx, if_neg hrec]
    rw [sentBy_self t (confirmAction t) htx] at hv
    simp at hv

/-- C20: in a run that starts with `indicators[0 .. 31]` clear and a candidate below 32 (as at
start-up and after a reset), and in which every two confirms that sent a byte have a generator
tick between them, every byte a confirm sends is the candidate `LSFR_5b`, whose slot of
`indicators` that confirm sets; and at the end of the run the bytes sent by confirms since the
last reset are pairwise distinct numbers below 32 whose slots are all set. -/
theorem draws_not_repeated (es : List Event) (s s' : State) (d : Draws)
    (hclear : ∀ i, i < 32 → s.indicators i = 0) (h5 : s.LSFR_5b < 32)
    (hr : runDraws es s ⟨[], true, true⟩ = some (s', d)) (hsep : d.separated = true) :
    run es s = some s' ∧ d.drawn.Nodup ∧
    (∀ v ∈ d.drawn, v < 32 ∧ s'.indicators v ≠ 0) ∧
    (∀ (P1IN : Nat) (t : State), P1IN &&& BIT5 = 0 → t.LSFR_5b < 32 →
      ∀ v ∈ sentBy t (TBCCR0ISR P1IN t),
        v = t.LSFR_5b ∧ (TBCCR0ISR P1IN t).indicators v ≠ 0) := by
  have k := runDraws_inv es s ⟨[], true, true⟩ s' d hr hsep h5
    (by intro v hv; simp at hv) List.nodup_nil (fun _ => hclear _ h5)
  exact ⟨runDraws_fst es s _ s' d hr, k.1, k.2, fun p t h ht => confirm_sent_marked p t h ht⟩

theorem draws_not_repeated_witness :
    ∃ s' d, runDraws twoDraws init ⟨[], true, true⟩ = some (s', d) ∧
      d.drawn = [0, 16] ∧ d.separated = true ∧ d.drawn.Nodup := by
  have h : (runDraws twoDraws init ⟨[], true, true⟩).map Prod.snd =
      some ⟨[0, 16], false, true⟩ := by decide!
  cases hr : runDraws twoDraws init ⟨[], true, true⟩ with
  | none =>
    rw [hr] at h
    exact absurd h (by simp)
  | some p =>
    obtain ⟨s', d⟩ := p
    rw [hr] at h
    simp only [Option.map_some', Option.some.injEq] at h
    subst h
    exact ⟨s', _, rfl, rfl, rfl,
      (draws_not_repeated twoDraws init s' _ (fun _ _ => rfl) (by decide) hr rfl).2.1⟩

end Lottery
